import Mathlib

/-!
Verification development for the fuzzy-GA study planner.

The Python source is embedded shallowly: floats become rationals,
dictionaries of membership degrees become structures, lists stay lists,
and every fallible operation (indexing, sampling, lookup) returns an
Option.  Randomness is modelled by oracle arguments: each call site that
draws from the random generator receives a raw oracle value, which is
sanitized to the contract of the corresponding Python primitive
(random.sample, random.randint, random.choice), so that every possible
run of the program corresponds to some choice of oracles.
-/

namespace StudyPlanner

/-- Python builtin max on two numbers (returns the first argument on ties). -/
def pyMax (a b : ℚ) : ℚ := if a < b then b else a

/-- Python builtin min on two numbers (returns the first argument on ties). -/
def pyMin (a b : ℚ) : ℚ := if b < a then b else a

theorem pyMax_eq_max (a b : ℚ) : pyMax a b = max a b := by
  unfold pyMax
  rcases le_or_lt b a with h | h
  · rw [if_neg (not_lt.mpr h), max_eq_left h]
  · rw [if_pos h, max_eq_right h.le]

theorem pyMin_eq_min (a b : ℚ) : pyMin a b = min a b := by
  unfold pyMin
  rcases le_or_lt a b with h | h
  · rw [if_neg (not_lt.mpr h), min_eq_left h]
  · rw [if_pos h, min_eq_right h.le]

/-- Membership degrees for daily study hours (dict with keys low, medium, high). -/
structure HoursMF where
  low : ℚ
  medium : ℚ
  high : ℚ
  deriving DecidableEq

/-- Membership degrees for course difficulty (dict with keys easy, medium, hard). -/
structure DiffMF where
  easy : ℚ
  medium : ℚ
  hard : ℚ
  deriving DecidableEq

/-- Output membership degrees for stress (dict with keys low, medium, high). -/
structure StressMF where
  low : ℚ
  medium : ℚ
  high : ℚ
  deriving DecidableEq

/-- FuzzyStressCalculator.fuzzify_hours: clamp to [0, 8], then piecewise-linear
membership degrees for low, medium, high. -/
def fuzzifyHours (hours0 : ℚ) : HoursMF :=
  let hours := pyMax 0 (pyMin hours0 8)
  { low := if hours ≤ 0 then 1 else if hours < 2 then 1 - hours / 2 else 0
    medium :=
      if hours ≤ 1 then 0
      else if hours < 3 then (hours - 1) / 2
      else if hours ≤ 3 then 1
      else if hours < 5 then (5 - hours) / 2
      else 0
    high := if hours ≤ 4 then 0 else if hours < 6 then (hours - 4) / 2 else 1 }

/-- FuzzyStressCalculator.fuzzify_difficulty: clamp to [1, 5], then piecewise-linear
membership degrees for easy, medium, hard. -/
def fuzzifyDifficulty (difficulty0 : ℚ) : DiffMF :=
  let difficulty := pyMax 1 (pyMin difficulty0 5)
  { easy :=
      if difficulty ≤ 1 then 1
      else if difficulty < 5/2 then (5/2 - difficulty) / (3/2)
      else 0
    medium :=
      if difficulty ≤ 2 then 0
      else if difficulty < 3 then (difficulty - 2) / 1
      else if difficulty ≤ 3 then 1
      else if difficulty < 4 then (4 - difficulty) / 1
      else 0
    hard :=
      if difficulty ≤ 7/2 then 0
      else if difficulty < 5 then (difficulty - 7/2) / (3/2)
      else 1 }

/-- The raw (pre-normalization) bucket totals accumulated by the seven rules of
FuzzyStressCalculator.apply_fuzzy_rules. -/
def rawStressMF (h : HoursMF) (d : DiffMF) : StressMF :=
  { low := pyMin h.low d.easy * (8/10) + pyMin h.high d.easy * (6/10)
    medium := pyMin h.medium d.medium * (7/10) + pyMin h.low d.medium * (7/10)
    high := pyMin h.high d.hard * (9/10) + pyMin h.medium d.hard * (9/10)
            + pyMin h.low d.hard * (95/100) }

/-- total = sum(stress_mf.values()) in apply_fuzzy_rules. -/
def rawTotal (h : HoursMF) (d : DiffMF) : ℚ :=
  (rawStressMF h d).low + (rawStressMF h d).medium + (rawStressMF h d).high

/-- FuzzyStressCalculator.apply_fuzzy_rules: accumulate the seven weighted rules,
then divide every bucket by the total when the total is positive. -/
def applyFuzzyRules (h : HoursMF) (d : DiffMF) : StressMF :=
  let s := rawStressMF h d
  let total := rawTotal h d
  if total > 0 then { low := s.low / total, medium := s.medium / total, high := s.high / total }
  else s

/-- FuzzyStressCalculator.defuzzify: weighted centroid, clamped to [0, 1]. -/
def defuzzify (s : StressMF) : ℚ :=
  pyMin 1 (pyMax 0 (s.low * (2/10) + s.medium * (5/10) + s.high * (8/10)))

/-- FuzzyStressCalculator.calculate_stress. -/
def calculateStress (dailyHours avgDifficulty : ℚ) : ℚ :=
  defuzzify (applyFuzzyRules (fuzzifyHours dailyHours) (fuzzifyDifficulty avgDifficulty))

/-- An input course record (dict with keys id, name, difficulty, exam_days_away). -/
structure Course where
  id : ℤ
  name : String
  difficulty : ℚ
  examDaysAway : ℤ
  deriving DecidableEq

/-- Constructor parameters of StudyScheduleGA. -/
structure GAParams where
  courses : List Course
  days : ℕ
  slotsPerDay : ℕ
  maxHoursPerDay : ℚ
  deriving DecidableEq

/-- self.hours_per_slot = 1.5. -/
def hoursPerSlot : ℚ := 3/2

/-- self.chromosome_length = days * slots_per_day. -/
def chromosomeLength (p : GAParams) : ℕ := p.days * p.slotsPerDay

/-- The ids of the configured courses. -/
def courseIds (p : GAParams) : List ℤ := p.courses.map (fun c => c.id)

/-- Python int() truncation toward zero, applied to a rational. -/
def pyInt (q : ℚ) : ℤ := Int.tdiv q.num q.den

/-- int(max_hours_per_day / hours_per_slot), the per-day capacity in slots. -/
def maxSlots (p : GAParams) : ℤ := pyInt (p.maxHoursPerDay / hoursPerSlot)

/-- Number of entries of a list holding a course (non-zero entries). -/
def countNZ (c : List ℤ) : ℕ := (c.filter (fun s => decide (s ≠ 0))).length

/-- The slice of a chromosome belonging to one day. -/
def daySlice (spd : ℕ) (c : List ℤ) (day : ℕ) : List ℤ := (c.drop (day * spd)).take spd

/-- StudyScheduleGA.is_valid_chromosome, iterating over the remaining d days on
the part of the chromosome starting at the current day. -/
def isValidFrom (maxH : ℚ) (spd : ℕ) : ℕ → List ℤ → Bool
  | 0, _ => true
  | d + 1, c =>
    if (countNZ (c.take spd) : ℚ) * hoursPerSlot > maxH then false
    else isValidFrom maxH spd d (c.drop spd)

/-- StudyScheduleGA.is_valid_chromosome. -/
def isValidChromosome (p : GAParams) (c : List ℤ) : Bool :=
  isValidFrom p.maxHoursPerDay p.slotsPerDay p.days c

/-- random.sample(l, k): an error when k exceeds the size of l; otherwise the
oracle value raw is used when it satisfies the contract of sample (k distinct
elements drawn from l), with a deterministic fallback for raw values outside
the contract. -/
def pySample (raw : List ℕ) (l : List ℕ) (k : ℕ) : Option (List ℕ) :=
  if k ≤ l.length then
    some (if raw.length = k ∧ raw.Nodup ∧ ∀ i ∈ raw, i ∈ l then raw else l.take k)
  else none

/-- The loop setting fixed[day_start + idx] = 0 for idx in indices_to_clear. -/
def clearSlots (l : List ℤ) (idxs : List ℕ) : List ℤ :=
  idxs.foldl (fun acc i => acc.set i 0) l

/-- The body of StudyScheduleGA.fix_chromosome for one day slice. -/
def fixDay (raw : List ℕ) (mslots : ℤ) (ds : List ℤ) : Option (List ℤ) :=
  if (countNZ ds : ℤ) > mslots then
    let toRemove := ((countNZ ds : ℤ) - mslots).toNat
    let nzIdx := (List.range ds.length).filter (fun i => decide (ds.getD i 0 ≠ 0))
    (pySample raw nzIdx toRemove).map (clearSlots ds)
  else some ds

/-- StudyScheduleGA.fix_chromosome, processed day by day; the day slices are
disjoint, so the in-place updates of the Python loop amount to fixing each
slice separately and reassembling. -/
def fixFrom (raw : ℕ → List ℕ) (mslots : ℤ) (spd : ℕ) : ℕ → List ℤ → Option (List ℤ)
  | 0, c => some c
  | d + 1, c => do
    let headAns ← fixDay (raw 0) mslots (c.take spd)
    let tail ← fixFrom (fun i => raw (i + 1)) mslots spd d (c.drop spd)
    return headAns ++ tail

/-- StudyScheduleGA.fix_chromosome. -/
def fixChromosome (p : GAParams) (raw : ℕ → List ℕ) (c : List ℤ) : Option (List ℤ) :=
  fixFrom raw (maxSlots p) p.slotsPerDay p.days c

/-- random.choice(ids + [0]) with oracle value raw, sanitized to the list. -/
def chooseCourseId (raw : ℤ) (ids : List ℤ) : ℤ :=
  if raw ∈ ids ++ [0] then raw else 0

/-- The inner slot loop of create_random_chromosome for one day, carrying the
count of already occupied slots of that day and the remaining slot count. -/
def createDayGo (coin : ℕ → Bool) (pick : ℕ → ℤ) (ids : List ℤ) (avail : ℤ)
    (used : ℕ) (slot : ℕ) : ℕ → List ℤ
  | 0 => []
  | rem + 1 =>
    if (used : ℤ) < avail then
      let g := if coin slot then chooseCourseId (pick slot) ids else 0
      g :: createDayGo coin pick ids avail (if g ≠ 0 then used + 1 else used) (slot + 1) rem
    else
      0 :: createDayGo coin pick ids avail used (slot + 1) rem

/-- StudyScheduleGA.create_random_chromosome. -/
def createRandomChromosome (p : GAParams) (coin : ℕ → ℕ → Bool) (pick : ℕ → ℕ → ℤ) :
    List ℤ :=
  ((List.range p.days).map
    (fun d => createDayGo (coin d) (pick d) (courseIds p) (maxSlots p) 0 0 p.slotsPerDay)).flatten

/-- StudyScheduleGA.create_initial_population. -/
def createInitialPopulation (p : GAParams) (coin : ℕ → ℕ → ℕ → Bool)
    (pick : ℕ → ℕ → ℕ → ℤ) (popSize : ℕ) : List (List ℤ) :=
  (List.range popSize).map (fun j => createRandomChromosome p (coin j) (pick j))

/-- Sequential evaluation of an Option-returning function over a list; this is
how the Python comprehensions and loops propagate exceptions. -/
def mapO {α β : Type} (f : α → Option β) : List α → Option (List β)
  | [] => some []
  | a :: l => do
    let b ← f a
    let bl ← mapO f l
    return b :: bl

/-- next(c for c in self.courses if c.id == s), keeping only the difficulty. -/
def lookupDifficulty (courses : List Course) (s : ℤ) : Option ℚ :=
  (courses.find? (fun c => c.id == s)).map (fun c => c.difficulty)

/-- The per-day overload and stress contributions inside evaluate_fitness. -/
def dayContrib (p : GAParams) (ds : List ℤ) : Option (ℚ × ℚ) := do
  let dayHours : ℚ := (countNZ ds : ℚ) * hoursPerSlot
  let over : ℚ := if dayHours > p.maxHoursPerDay then (dayHours - p.maxHoursPerDay) ^ 2 else 0
  let nz := ds.filter (fun s => decide (s ≠ 0))
  let avg : ℚ ←
    if nz.isEmpty then pure 0
    else do
      let diffs ← mapO (lookupDifficulty p.courses) nz
      pure (diffs.sum / (diffs.length : ℚ))
  return (over, calculateStress dayHours avg)

/-- StudyScheduleGA.evaluate_fitness. -/
def evaluateFitness (p : GAParams) (c : List ℤ) : Option ℚ := do
  let parts ← mapO (fun day => dayContrib p (daySlice p.slotsPerDay c day)) (List.range p.days)
  let coverage : ℚ := (((c.filter (fun s => decide (s ≠ 0))).dedup).length : ℚ)
  return pyMax 0 (5 * coverage - 2 * (parts.map Prod.fst).sum - 3 * (parts.map Prod.snd).sum)

/-- Python max on a non-empty list of numbers; an error on the empty list. -/
def pyListMax : List ℚ → Option ℚ
  | [] => none
  | x :: xs => some (xs.foldl pyMax x)

/-- Python max(iterable, key=f): the first maximal element; error when empty. -/
def pyMaxBy (key : ℕ → ℚ) : List ℕ → Option ℕ
  | [] => none
  | x :: xs => some (xs.foldl (fun b i => if key b < key i then i else b) x)

/-- One tournament round of StudyScheduleGA.selection (tournament_size = 3). -/
def selectionGo (pop : List (List ℤ)) (scores : List ℚ) (sraw : ℕ → List ℕ) :
    ℕ → Option (List (List ℤ))
  | 0 => some []
  | r + 1 => do
    let idx ← pySample (sraw 0) (List.range pop.length) 3
    let winner ← pyMaxBy (fun i => scores.getD i 0) idx
    let w ← pop.get? winner
    let rest ← selectionGo pop scores (fun i => sraw (i + 1)) r
    return w :: rest

/-- StudyScheduleGA.selection. -/
def selection (pop : List (List ℤ)) (scores : List ℚ) (sraw : ℕ → List ℕ) :
    Option (List (List ℤ)) :=
  selectionGo pop scores sraw pop.length

/-- random.randint(lo, hi): an error when lo > hi; the oracle value raw is used
when it lies in the range, with fallback lo otherwise. -/
def pyRandint (raw lo hi : ℕ) : Option ℕ :=
  if lo ≤ hi then some (if lo ≤ raw ∧ raw ≤ hi then raw else lo) else none

/-- StudyScheduleGA.crossover; coin models the random.random() < crossover_rate
draw. -/
def crossover (p : GAParams) (coin : Bool) (pointRaw : ℕ) (fr1 fr2 : ℕ → List ℕ)
    (p1 p2 : List ℤ) : Option (List ℤ × List ℤ) :=
  if coin then do
    let point ← pyRandint pointRaw 1 (p1.length - 1)
    let c1 := p1.take point ++ p2.drop point
    let c2 := p2.take point ++ p1.drop point
    let c1f ← if isValidChromosome p c1 then some c1 else fixChromosome p fr1 c1
    let c2f ← if isValidChromosome p c2 then some c2 else fixChromosome p fr2 c2
    return (c1f, c2f)
  else
    some (p1, p2)

/-- One step of the gene loop in StudyScheduleGA.mutate; coin i models the
random.random() < mutation_rate draw at position i. -/
def mutateStep (p : GAParams) (coin : ℕ → Bool) (pick : ℕ → ℤ) (c : List ℤ) (i : ℕ) :
    List ℤ :=
  if coin i then
    let day := i / p.slotsPerDay
    let ds := (c.drop (day * p.slotsPerDay)).take p.slotsPerDay
    if c.getD i 0 ≠ 0 then c.set i (chooseCourseId (pick i) (courseIds p))
    else if (countNZ ds : ℤ) < maxSlots p then c.set i (chooseCourseId (pick i) (courseIds p))
    else c
  else c

/-- The gene loop of StudyScheduleGA.mutate over the remaining rem positions. -/
def mutateGo (p : GAParams) (coin : ℕ → Bool) (pick : ℕ → ℤ) : ℕ → ℕ → List ℤ → List ℤ
  | _, 0, c => c
  | i, rem + 1, c => mutateGo p coin pick (i + 1) rem (mutateStep p coin pick c i)

/-- StudyScheduleGA.mutate. -/
def mutate (p : GAParams) (coin : ℕ → Bool) (pick : ℕ → ℤ) (fraw : ℕ → List ℕ)
    (c : List ℤ) : Option (List ℤ) :=
  let m := mutateGo p coin pick 0 c.length c
  if isValidChromosome p m then some m else fixChromosome p fraw m

/-- The oracle values consumed while breeding one pair of parents. -/
structure PairOracle where
  crossCoin : Bool
  pointRaw : ℕ
  fixRaw1 : ℕ → List ℕ
  fixRaw2 : ℕ → List ℕ
  mutCoin1 : ℕ → Bool
  mutPick1 : ℕ → ℤ
  mutFix1 : ℕ → List ℕ
  mutCoin2 : ℕ → Bool
  mutPick2 : ℕ → ℤ
  mutFix2 : ℕ → List ℕ

/-- The crossover-and-mutation pairing loop of one generation of evolve; an odd
pool pairs its last element with the first element of the pool. -/
def breedPairs (p : GAParams) (po : ℕ → PairOracle) (first : List ℤ) :
    ℕ → List (List ℤ) → Option (List (List ℤ))
  | _, [] => some []
  | k, [p1] => do
    let cc ← crossover p (po k).crossCoin (po k).pointRaw (po k).fixRaw1 (po k).fixRaw2 p1 first
    let m1 ← mutate p (po k).mutCoin1 (po k).mutPick1 (po k).mutFix1 cc.1
    let m2 ← mutate p (po k).mutCoin2 (po k).mutPick2 (po k).mutFix2 cc.2
    return [m1, m2]
  | k, p1 :: p2 :: rest => do
    let cc ← crossover p (po k).crossCoin (po k).pointRaw (po k).fixRaw1 (po k).fixRaw2 p1 p2
    let m1 ← mutate p (po k).mutCoin1 (po k).mutPick1 (po k).mutFix1 cc.1
    let m2 ← mutate p (po k).mutCoin2 (po k).mutPick2 (po k).mutFix2 cc.2
    let tail ← breedPairs p po first (k + 1) rest
    return m1 :: m2 :: tail

/-- The oracle values consumed by one generation of evolve. -/
structure GenOracle where
  selRaw : ℕ → List ℕ
  pair : ℕ → PairOracle

/-- The generation loop of StudyScheduleGA.evolve, returning the final
population together with the recorded best-fitness history. -/
def evolveLoop (p : GAParams) (popSize : ℕ) (gen : ℕ → GenOracle) :
    ℕ → List (List ℤ) → Option (List (List ℤ) × List ℚ)
  | 0, pop => some (pop, [])
  | g + 1, pop => do
    let scores ← mapO (evaluateFitness p) pop
    let best ← pyListMax scores
    let selected ← selection pop scores (gen 0).selRaw
    let children ← breedPairs p (gen 0).pair (selected.headD []) 0 selected
    let res ← evolveLoop p popSize (fun i => gen (i + 1)) g (children.take popSize)
    return (res.1, best :: res.2)

/-- numpy argmax on a list: index of the first maximal element; an error on the
empty list. -/
def npArgmax (l : List ℚ) : Option ℕ :=
  (pyListMax l).bind (fun m => l.findIdx? (fun x => decide (x = m)))

/-- All oracle values consumed by one call of evolve. -/
structure EvolveOracle where
  initCoin : ℕ → ℕ → ℕ → Bool
  initPick : ℕ → ℕ → ℕ → ℤ
  gen : ℕ → GenOracle

/-- StudyScheduleGA.evolve. -/
def evolve (p : GAParams) (o : EvolveOracle) (popSize gens : ℕ) :
    Option (List ℤ × List ℚ) := do
  let pop0 := createInitialPopulation p o.initCoin o.initPick popSize
  let res ← evolveLoop p popSize o.gen gens pop0
  let finalScores ← mapO (evaluateFitness p) res.1
  let bestIdx ← npArgmax finalScores
  let best ← res.1.get? bestIdx
  return (best, res.2)

/-- The fixed day label list of schedule_to_readable. -/
def dayNames : List String :=
  ["Monday", "Tuesday", "Wednesday", "Thursday", "Friday", "Saturday", "Sunday"]

/-- The fixed slot label list of schedule_to_readable. -/
def slotNames : List String := ["Morning", "Afternoon", "Evening"]

/-- day_names[day] when day is in range, otherwise the ordinal fallback label. -/
def dayLabel (d : ℕ) : String := dayNames.getD d ("Day " ++ toString d)

/-- slot_names[i] when i is in range, otherwise the ordinal fallback label. -/
def slotLabel (i : ℕ) : String := slotNames.getD i ("Slot " ++ toString i)

/-- StudyScheduleGA.stress_label. -/
def stressLabel (v : ℚ) : String :=
  if v < 33/100 then "Low" else if v < 67/100 then "Medium" else "High"

/-- The value attached to one day label by schedule_to_readable: the slot
entries in order plus the three summary fields (the decimal string formatting
of the Python f-strings is elided, the values themselves are kept). -/
structure DayReadable where
  slots : List (String × String)
  totalHours : ℚ
  avgDifficulty : ℚ
  stressValue : ℚ
  label : String
  deriving DecidableEq

/-- next(c for c in self.courses if c.id == course_id). -/
def lookupCourse (courses : List Course) (s : ℤ) : Option Course :=
  courses.find? (fun c => c.id == s)

/-- The name attached to an id by lookupCourse, defaulting to the empty string
(under the stated precondition the lookup always succeeds). -/
def courseNameD (courses : List Course) (s : ℤ) : String :=
  ((lookupCourse courses s).map (fun c => c.name)).getD ""

/-- One day of StudyScheduleGA.schedule_to_readable. -/
def dayReadable (p : GAParams) (ds : List ℤ) : Option DayReadable := do
  let entries ← mapO
    (fun si : ℕ × ℤ =>
      if si.2 ≠ 0 then (lookupCourse p.courses si.2).map (fun co => (slotLabel si.1, co.name))
      else some (slotLabel si.1, "Rest"))
    ds.enum
  let totalHours : ℚ := (countNZ ds : ℚ) * hoursPerSlot
  let diffs ← mapO (lookupDifficulty p.courses) (ds.filter (fun s => decide (s ≠ 0)))
  let avg : ℚ := if diffs.isEmpty then 0 else diffs.sum / (diffs.length : ℚ)
  let stress := calculateStress totalHours avg
  return ⟨entries, totalHours, avg, stress, stressLabel stress⟩

/-- StudyScheduleGA.schedule_to_readable as an association list from day label
to day content, in day order. -/
def scheduleToReadable (p : GAParams) (c : List ℤ) : Option (List (String × DayReadable)) :=
  mapO (fun d => (dayReadable p (daySlice p.slotsPerDay c d)).map (fun r => (dayLabel d, r)))
    (List.range p.days)

/-- Spec wording for C5: coverage is the number of distinct non-zero ids. -/
def specCoverage (c : List ℤ) : ℕ := ((c.filter (fun s => decide (s ≠ 0))).dedup).length

/-- Spec wording for C5: difficulty of an id, 0 when absent (under the stated
precondition every id is present). -/
def difficultyD (courses : List Course) (s : ℤ) : ℚ :=
  ((courses.find? (fun c => c.id == s)).map (fun c => c.difficulty)).getD 0

/-- Spec wording for C5: hours assigned to one day of the schedule. -/
def specDayHours (p : GAParams) (c : List ℤ) (day : ℕ) : ℚ :=
  (countNZ (daySlice p.slotsPerDay c day) : ℚ) * hoursPerSlot

/-- Spec wording for C5: the overload penalty sums, per day, the squared excess
of the day hours over the capacity. -/
def specOverload (p : GAParams) (c : List ℤ) : ℚ :=
  ((List.range p.days).map
    (fun day => (pyMax 0 (specDayHours p c day - p.maxHoursPerDay)) ^ 2)).sum

/-- Spec wording for C5: mean difficulty of the activities of a day, 0 when the
day has none. -/
def specAvgDifficulty (p : GAParams) (c : List ℤ) (day : ℕ) : ℚ :=
  let nz := (daySlice p.slotsPerDay c day).filter (fun s => decide (s ≠ 0))
  if nz.isEmpty then 0 else ((nz.map (difficultyD p.courses)).sum) / (nz.length : ℚ)

/-- Spec wording for C5: the stress penalty sums the per-day stress values. -/
def specStressPenalty (p : GAParams) (c : List ℤ) : ℚ :=
  ((List.range p.days).map
    (fun day => calculateStress (specDayHours p c day) (specAvgDifficulty p c day))).sum

/-- Spec wording for C5: fitness = max(0, 5 coverage - 2 overload - 3 stress). -/
def specFitness (p : GAParams) (c : List ℤ) : ℚ :=
  pyMax 0 (5 * (specCoverage c : ℚ) - 2 * specOverload p c - 3 * specStressPenalty p c)

/-- The gene alphabet invariant: every entry is rest (0) or a configured id. -/
def genesOK (p : GAParams) (c : List ℤ) : Prop := ∀ g ∈ c, g = 0 ∨ g ∈ courseIds p

/-- A sample course list used for concrete instantiations. -/
def wCourses : List Course := [⟨1, "Algebra", 3, 5⟩, ⟨2, "Logic", 4, 8⟩]

/-- 1 day of 2 slots, 3 max hours: capacity 2 slots per day. -/
def wParams : GAParams := ⟨wCourses, 1, 2, 3⟩

/-- 1 day of 1 slot, 4 max hours: the configuration refuting C2 at pop size 2. -/
def cxParams : GAParams := ⟨wCourses, 1, 1, 4⟩

/-- 1 day of 2 slots, 4 max hours: chromosome length 2, capacity 2. -/
def c2Params : GAParams := ⟨wCourses, 1, 2, 4⟩

/-- 1 day of 2 slots, 1.5 max hours: capacity 1 slot per day. -/
def c4Params : GAParams := ⟨wCourses, 1, 2, 3/2⟩

/-- 10 days of 3 slots: decoding beyond the 7 named days. -/
def c8ParamsDays : GAParams := ⟨wCourses, 10, 3, 4⟩

/-- 7 days of 5 slots: decoding beyond the 3 named slots. -/
def c8ParamsSlots : GAParams := ⟨wCourses, 7, 5, 4⟩

/-- A fixed uninformative pair oracle. -/
def trivialPairOracle : PairOracle :=
  ⟨false, 0, fun _ => [], fun _ => [], fun _ => false, fun _ => 0, fun _ => [],
   fun _ => false, fun _ => 0, fun _ => []⟩

/-- A fixed uninformative generation oracle. -/
def trivialGenOracle : GenOracle := ⟨fun _ => [], fun _ => trivialPairOracle⟩

/-- A fixed uninformative evolve oracle. -/
def trivialEvolveOracle : EvolveOracle :=
  ⟨fun _ _ _ => false, fun _ _ _ => 0, fun _ => trivialGenOracle⟩

end StudyPlanner

namespace StudyPlanner

theorem defuzzify_nonneg (s : StressMF) : 0 ≤ defuzzify s := by
  unfold defuzzify
  rw [pyMin_eq_min, pyMax_eq_max]
  exact le_min zero_le_one (le_max_left 0 _)

theorem defuzzify_le_one (s : StressMF) : defuzzify s ≤ 1 := by
  unfold defuzzify
  rw [pyMin_eq_min]
  exact min_le_left 1 _

/-- C1: for every rational input pair the stress value lies in [0, 1], and
clamping makes out-of-range inputs agree with the boundary values:
calculate_stress(-5, 3) = calculate_stress(0, 3) and
calculate_stress(3, 99) = calculate_stress(3, 5). -/
theorem C1_stress_range_and_clamping :
    (∀ h d : ℚ, 0 ≤ calculateStress h d ∧ calculateStress h d ≤ 1) ∧
    calculateStress (-5) 3 = calculateStress 0 3 ∧
    calculateStress 3 99 = calculateStress 3 5 :=
  ⟨fun h d => ⟨defuzzify_nonneg _, defuzzify_le_one _⟩,
    by norm_num [calculateStress, defuzzify, applyFuzzyRules, rawTotal, rawStressMF,
      fuzzifyHours, fuzzifyDifficulty, pyMin, pyMax],
    by norm_num [calculateStress, defuzzify, applyFuzzyRules, rawTotal, rawStressMF,
      fuzzifyHours, fuzzifyDifficulty, pyMin, pyMax]⟩

/-- C7: time-pressure dominance, a hard course with half an hour of study is
strictly more stressful than a medium course with three hours. -/
theorem C7_time_pressure : calculateStress (5/10) 5 > calculateStress 3 3 := by
  norm_num [calculateStress, defuzzify, applyFuzzyRules, rawTotal, rawStressMF,
    fuzzifyHours, fuzzifyDifficulty, pyMin, pyMax]

theorem pyMax_nonneg_left (a b : ℚ) (ha : 0 ≤ a) : 0 ≤ pyMax a b := by
  rw [pyMax_eq_max]; exact le_trans ha (le_max_left a b)

theorem pyMin_nonneg (a b : ℚ) (ha : 0 ≤ a) (hb : 0 ≤ b) : 0 ≤ pyMin a b := by
  rw [pyMin_eq_min]; exact le_min ha hb

theorem fuzzifyHours_nonneg (h : ℚ) :
    0 ≤ (fuzzifyHours h).low ∧ 0 ≤ (fuzzifyHours h).medium ∧ 0 ≤ (fuzzifyHours h).high := by
  have hx : 0 ≤ pyMax 0 (pyMin h 8) := pyMax_nonneg_left 0 _ le_rfl
  simp only [fuzzifyHours]
  refine ⟨?_, ?_, ?_⟩ <;> (split_ifs <;> linarith)

theorem fuzzifyDifficulty_nonneg (d : ℚ) :
    0 ≤ (fuzzifyDifficulty d).easy ∧ 0 ≤ (fuzzifyDifficulty d).medium ∧
    0 ≤ (fuzzifyDifficulty d).hard := by
  have hx : (1 : ℚ) ≤ pyMax 1 (pyMin d 5) := by
    rw [pyMax_eq_max]; exact le_max_left 1 _
  simp only [fuzzifyDifficulty]
  refine ⟨?_, ?_, ?_⟩ <;> (split_ifs <;> linarith)

/-- C6 is refuted at hours = 3, difficulty = 1: every rule activation vanishes,
so the pre-normalization total is 0, yet the six membership degrees are not all
zero (the medium-hours degree and the easy-difficulty degree are both 1). -/
theorem C6_counterexample :
    rawTotal (fuzzifyHours 3) (fuzzifyDifficulty 1) = 0 ∧
    ¬((fuzzifyHours 3).low = 0 ∧ (fuzzifyHours 3).medium = 0 ∧ (fuzzifyHours 3).high = 0 ∧
      (fuzzifyDifficulty 1).easy = 0 ∧ (fuzzifyDifficulty 1).medium = 0 ∧
      (fuzzifyDifficulty 1).hard = 0) := by
  constructor
  · norm_num [rawTotal, rawStressMF, fuzzifyHours, fuzzifyDifficulty, pyMin, pyMax]
  · intro hall
    have := hall.2.1
    norm_num [fuzzifyHours, pyMin, pyMax] at this

/-- C6 amended: the pre-normalization total of the three buckets is 0 exactly
when all seven rule activations (the min of the paired degrees for each rule)
are 0; when the total is 0 the buckets are left at 0, and otherwise each bucket
is divided by the total so that the three normalized buckets sum to 1. -/
theorem C6_amended_normalization (h d : ℚ) :
    (rawTotal (fuzzifyHours h) (fuzzifyDifficulty d) = 0 ↔
      (pyMin (fuzzifyHours h).low (fuzzifyDifficulty d).easy = 0 ∧
       pyMin (fuzzifyHours h).medium (fuzzifyDifficulty d).medium = 0 ∧
       pyMin (fuzzifyHours h).high (fuzzifyDifficulty d).hard = 0 ∧
       pyMin (fuzzifyHours h).high (fuzzifyDifficulty d).easy = 0 ∧
       pyMin (fuzzifyHours h).medium (fuzzifyDifficulty d).hard = 0 ∧
       pyMin (fuzzifyHours h).low (fuzzifyDifficulty d).hard = 0 ∧
       pyMin (fuzzifyHours h).low (fuzzifyDifficulty d).medium = 0)) ∧
    (rawTotal (fuzzifyHours h) (fuzzifyDifficulty d) = 0 →
      applyFuzzyRules (fuzzifyHours h) (fuzzifyDifficulty d) =
        { low := 0, medium := 0, high := 0 }) ∧
    (rawTotal (fuzzifyHours h) (fuzzifyDifficulty d) ≠ 0 →
      (applyFuzzyRules (fuzzifyHours h) (fuzzifyDifficulty d)).low +
      (applyFuzzyRules (fuzzifyHours h) (fuzzifyDifficulty d)).medium +
      (applyFuzzyRules (fuzzifyHours h) (fuzzifyDifficulty d)).high = 1) := by
  obtain ⟨hl, hm, hh⟩ := fuzzifyHours_nonneg h
  obtain ⟨de, dm, dh⟩ := fuzzifyDifficulty_nonneg d
  generalize hH : fuzzifyHours h = H at *
  generalize hD : fuzzifyDifficulty d = D at *
  obtain ⟨Hl, Hm, Hh⟩ := H
  obtain ⟨De, Dm, Dh⟩ := D
  simp only at hl hm hh de dm dh ⊢
  have m1 : 0 ≤ pyMin Hl De := pyMin_nonneg _ _ hl de
  have m2 : 0 ≤ pyMin Hm Dm := pyMin_nonneg _ _ hm dm
  have m3 : 0 ≤ pyMin Hh Dh := pyMin_nonneg _ _ hh dh
  have m4 : 0 ≤ pyMin Hh De := pyMin_nonneg _ _ hh de
  have m5 : 0 ≤ pyMin Hm Dh := pyMin_nonneg _ _ hm dh
  have m6 : 0 ≤ pyMin Hl Dh := pyMin_nonneg _ _ hl dh
  have m7 : 0 ≤ pyMin Hl Dm := pyMin_nonneg _ _ hl dm
  have htot : rawTotal ⟨Hl, Hm, Hh⟩ ⟨De, Dm, Dh⟩ =
      pyMin Hl De * (8/10) + pyMin Hh De * (6/10) +
      (pyMin Hm Dm * (7/10) + pyMin Hl Dm * (7/10)) +
      (pyMin Hh Dh * (9/10) + pyMin Hm Dh * (9/10) + pyMin Hl Dh * (95/100)) := by
    simp only [rawTotal, rawStressMF]
  have hiff : rawTotal ⟨Hl, Hm, Hh⟩ ⟨De, Dm, Dh⟩ = 0 ↔
      (pyMin Hl De = 0 ∧ pyMin Hm Dm = 0 ∧ pyMin Hh Dh = 0 ∧ pyMin Hh De = 0 ∧
       pyMin Hm Dh = 0 ∧ pyMin Hl Dh = 0 ∧ pyMin Hl Dm = 0) := by
    rw [htot]
    constructor
    · intro h0
      refine ⟨?_, ?_, ?_, ?_, ?_, ?_, ?_⟩ <;> linarith
    · rintro ⟨e1, e2, e3, e4, e5, e6, e7⟩
      rw [e1, e2, e3, e4, e5, e6, e7]; ring
  refine ⟨hiff, ?_, ?_⟩
  · intro h0
    have hsm : rawStressMF ⟨Hl, Hm, Hh⟩ ⟨De, Dm, Dh⟩ = { low := 0, medium := 0, high := 0 } := by
      obtain ⟨e1, e2, e3, e4, e5, e6, e7⟩ := hiff.mp h0
      simp only [rawStressMF, e1, e2, e3, e4, e5, e6, e7, StressMF.mk.injEq]
      norm_num
    simp only [applyFuzzyRules, h0, hsm]
    norm_num
  · intro hne
    have hpos : 0 < rawTotal ⟨Hl, Hm, Hh⟩ ⟨De, Dm, Dh⟩ := by
      rcases lt_or_eq_of_le (by rw [htot]; positivity : (0:ℚ) ≤ rawTotal ⟨Hl, Hm, Hh⟩ ⟨De, Dm, Dh⟩)
        with hp | hp
      · exact hp
      · exact absurd hp.symm hne
    have hsum : (rawStressMF ⟨Hl, Hm, Hh⟩ ⟨De, Dm, Dh⟩).low +
        (rawStressMF ⟨Hl, Hm, Hh⟩ ⟨De, Dm, Dh⟩).medium +
        (rawStressMF ⟨Hl, Hm, Hh⟩ ⟨De, Dm, Dh⟩).high =
        rawTotal ⟨Hl, Hm, Hh⟩ ⟨De, Dm, Dh⟩ := by
      simp only [rawTotal]
    simp only [applyFuzzyRules, if_pos hpos]
    rw [div_add_div_same, div_add_div_same, div_eq_one_iff_eq (ne_of_gt hpos)]
    exact hsum

/-- Witness: the amended normalization theorem applied at hours 3, difficulty 1,
where the total really is 0 and the buckets are left untouched at 0. -/
theorem C6_amended_normalization_witness :
    applyFuzzyRules (fuzzifyHours 3) (fuzzifyDifficulty 1) =
      { low := 0, medium := 0, high := 0 } :=
  (C6_amended_normalization 3 1).2.1
    (by norm_num [rawTotal, rawStressMF, fuzzifyHours, fuzzifyDifficulty, pyMin, pyMax])

theorem hoursPerSlot_pos : (0 : ℚ) < hoursPerSlot := by norm_num [hoursPerSlot]

theorem pyInt_eq_floor (q : ℚ) (hq : 0 ≤ q) : pyInt q = ⌊q⌋ := by
  rw [pyInt, Rat.floor_def]
  exact Int.tdiv_eq_ediv (Rat.num_nonneg.mpr hq) (Int.ofNat_nonneg q.den)

theorem maxSlots_nonneg (p : GAParams) (hm : 0 ≤ p.maxHoursPerDay) : 0 ≤ maxSlots p := by
  rw [maxSlots, pyInt_eq_floor _ (div_nonneg hm hoursPerSlot_pos.le)]
  exact Int.le_floor.mpr (by push_cast; exact div_nonneg hm hoursPerSlot_pos.le)

/-- The capacity bridge: a slot count respects the integer capacity exactly when
the corresponding hours respect the hour capacity. -/
theorem le_maxSlots_iff (p : GAParams) (hm : 0 ≤ p.maxHoursPerDay) (n : ℕ) :
    ((n : ℤ) ≤ maxSlots p) ↔ ((n : ℚ) * hoursPerSlot ≤ p.maxHoursPerDay) := by
  rw [maxSlots, pyInt_eq_floor _ (div_nonneg hm hoursPerSlot_pos.le), Int.le_floor,
    le_div_iff₀ hoursPerSlot_pos]
  push_cast
  rfl

theorem countNZ_nil : countNZ [] = 0 := rfl

theorem countNZ_cons (a : ℤ) (t : List ℤ) :
    countNZ (a :: t) = (if a = 0 then 0 else 1) + countNZ t := by
  by_cases h : a = 0
  · simp [countNZ, List.filter_cons, h]
  · simp [countNZ, List.filter_cons, h]
    omega

theorem countNZ_nonneg_sub (l : List ℤ) : (0 : ℤ) ≤ (countNZ l : ℤ) := Int.ofNat_nonneg _

theorem getD_set_ne (l : List ℤ) (i j : ℕ) (a : ℤ) (h : i ≠ j) :
    (l.set i a).getD j 0 = l.getD j 0 := by
  simp [List.getD_eq_getElem?_getD, List.getElem?_set_ne h]

theorem getD_set_self (l : List ℤ) (i : ℕ) (a : ℤ) (h : i < l.length) :
    (l.set i a).getD i 0 = a := by
  simp [List.getD_eq_getElem?_getD, List.getElem?_set_self, h]

theorem countNZ_set_zero (l : List ℤ) (i : ℕ) (h : i < l.length) (hnz : l.getD i 0 ≠ 0) :
    countNZ (l.set i 0) + 1 = countNZ l := by
  induction l generalizing i with
  | nil => simp at h
  | cons a t ih =>
    cases i with
    | zero =>
      have ha : a ≠ 0 := by simpa [List.getD_cons_zero] using hnz
      simp [List.set, countNZ_cons, ha]
      omega
    | succ i' =>
      have h' : i' < t.length := by simpa using h
      have hnz' : t.getD i' 0 ≠ 0 := by simpa [List.getD_cons_succ] using hnz
      have := ih i' h' hnz'
      simp only [List.set, countNZ_cons]
      omega

theorem pySample_spec (raw l : List ℕ) (k : ℕ) (hnd : l.Nodup) (hk : k ≤ l.length) :
    ∃ out, pySample raw l k = some out ∧ out.length = k ∧ out.Nodup ∧ ∀ i ∈ out, i ∈ l := by
  rw [pySample, if_pos hk]
  by_cases hc : raw.length = k ∧ raw.Nodup ∧ ∀ i ∈ raw, i ∈ l
  · exact ⟨raw, by rw [if_pos hc], hc.1, hc.2.1, hc.2.2⟩
  · refine ⟨l.take k, by rw [if_neg hc], ?_, ?_, ?_⟩
    · simpa using hk
    · exact (List.take_sublist k l).nodup hnd
    · exact fun i hi => List.take_subset k l hi

theorem nzIdx_length (l : List ℤ) :
    ((List.range l.length).filter (fun i => decide (l.getD i 0 ≠ 0))).length = countNZ l := by
  induction l with
  | nil => rfl
  | cons a t ih =>
    rw [List.length_cons, List.range_succ_eq_map, List.filter_cons, List.filter_map]
    have hcomp : ((fun i => decide ((a :: t).getD i 0 ≠ 0)) ∘ Nat.succ)
        = (fun i => decide (t.getD i 0 ≠ 0)) := by
      funext i
      simp [List.getD_cons_succ]
    rw [hcomp]
    by_cases h : a = 0
    · rw [countNZ_cons, if_pos h, if_neg (by simp [List.getD_cons_zero, h]),
        List.length_map, ih]
      omega
    · rw [countNZ_cons, if_neg h, if_pos (by simp [List.getD_cons_zero, h]),
        List.length_cons, List.length_map, ih]
      omega

theorem nzIdx_mem (l : List ℤ) (i : ℕ)
    (hi : i ∈ (List.range l.length).filter (fun j => decide (l.getD j 0 ≠ 0))) :
    i < l.length ∧ l.getD i 0 ≠ 0 := by
  have h := List.mem_filter.mp hi
  exact ⟨List.mem_range.mp h.1, by simpa using h.2⟩

theorem nzIdx_nodup (l : List ℤ) :
    ((List.range l.length).filter (fun j => decide (l.getD j 0 ≠ 0))).Nodup :=
  (List.nodup_range _).filter _

theorem clearSlots_cons (l : List ℤ) (i : ℕ) (rest : List ℕ) :
    clearSlots l (i :: rest) = clearSlots (l.set i 0) rest := rfl

theorem clearSlots_length (l : List ℤ) (idxs : List ℕ) :
    (clearSlots l idxs).length = l.length := by
  induction idxs generalizing l with
  | nil => rfl
  | cons i rest ih => rw [clearSlots_cons, ih, List.length_set]

theorem clearSlots_getD_of_notMem (l : List ℤ) (idxs : List ℕ) (j : ℕ) (hj : j ∉ idxs) :
    (clearSlots l idxs).getD j 0 = l.getD j 0 := by
  induction idxs generalizing l with
  | nil => rfl
  | cons i rest ih =>
    rw [clearSlots_cons, ih _ (fun h => hj (List.mem_cons_of_mem i h)),
      getD_set_ne _ _ _ _ (fun h => hj (by rw [← h]; exact List.mem_cons_self i rest))]

theorem clearSlots_getD_of_mem (l : List ℤ) (idxs : List ℕ) (j : ℕ) (hnd : idxs.Nodup)
    (hlen : ∀ i ∈ idxs, i < l.length) (hj : j ∈ idxs) :
    (clearSlots l idxs).getD j 0 = 0 := by
  induction idxs generalizing l with
  | nil => simp at hj
  | cons i rest ih =>
    rw [clearSlots_cons]
    rcases List.mem_cons.mp hj with rfl | hj'
    · rw [clearSlots_getD_of_notMem _ _ _ (List.Nodup.not_mem hnd),
        getD_set_self _ _ _ (hlen j (List.mem_cons_self j rest))]
    · exact ih (l.set i 0) (List.Nodup.of_cons hnd)
        (fun x hx => by rw [List.length_set]; exact hlen x (List.mem_cons_of_mem i hx)) hj'

theorem clearSlots_countNZ (l : List ℤ) (idxs : List ℕ) (hnd : idxs.Nodup)
    (hval : ∀ i ∈ idxs, i < l.length ∧ l.getD i 0 ≠ 0) :
    countNZ (clearSlots l idxs) + idxs.length = countNZ l := by
  induction idxs generalizing l with
  | nil => rfl
  | cons i rest ih =>
    rw [clearSlots_cons]
    have hi := hval i (List.mem_cons_self i rest)
    have hstep := countNZ_set_zero l i hi.1 hi.2
    have hrec := ih (l.set i 0) (List.Nodup.of_cons hnd) (fun x hx => by
      have hx' := hval x (List.mem_cons_of_mem i hx)
      refine ⟨by rw [List.length_set]; exact hx'.1, ?_⟩
      rw [getD_set_ne _ _ _ _ (fun h => (List.Nodup.not_mem hnd) (by rw [h]; exact hx))]
      exact hx'.2)
    simp only [List.length_cons]
    omega

theorem fixDay_of_le (raw : List ℕ) (mslots : ℤ) (ds : List ℤ)
    (h : (countNZ ds : ℤ) ≤ mslots) : fixDay raw mslots ds = some ds := by
  rw [fixDay, if_neg (not_lt.mpr h)]

theorem fixDay_spec (raw : List ℕ) (mslots : ℤ) (ds : List ℤ) (hm : 0 ≤ mslots) :
    ∃ out, fixDay raw mslots ds = some out ∧ out.length = ds.length ∧
      (countNZ out : ℤ) ≤ mslots ∧
      (∀ j, out.getD j 0 = ds.getD j 0 ∨ (ds.getD j 0 ≠ 0 ∧ out.getD j 0 = 0)) := by
  by_cases hgt : (countNZ ds : ℤ) > mslots
  · have hk : ((countNZ ds : ℤ) - mslots).toNat ≤
        ((List.range ds.length).filter (fun i => decide (ds.getD i 0 ≠ 0))).length := by
      rw [nzIdx_length]; omega
    obtain ⟨chosen, hs, hclen, hcnd, hcsub⟩ :=
      pySample_spec raw _ (((countNZ ds : ℤ) - mslots).toNat) (nzIdx_nodup ds) hk
    refine ⟨clearSlots ds chosen, ?_, clearSlots_length ds chosen, ?_, ?_⟩
    · rw [fixDay, if_pos hgt]
      simp only [hs, Option.map_some']
    · have hcount := clearSlots_countNZ ds chosen hcnd
        (fun i hi => nzIdx_mem ds i (hcsub i hi))
      rw [hclen] at hcount
      omega
    · intro j
      by_cases hj : j ∈ chosen
      · exact Or.inr ⟨(nzIdx_mem ds j (hcsub j hj)).2,
          clearSlots_getD_of_mem ds chosen j hcnd
            (fun i hi => (nzIdx_mem ds i (hcsub i hi)).1) hj⟩
      · exact Or.inl (clearSlots_getD_of_notMem ds chosen j hj)
  · exact ⟨ds, fixDay_of_le raw mslots ds (not_lt.mp hgt), rfl, not_lt.mp hgt,
      fun j => Or.inl rfl⟩

theorem daySlice_zero (spd : ℕ) (c : List ℤ) : daySlice spd c 0 = c.take spd := by
  simp [daySlice]

theorem daySlice_succ_drop (spd : ℕ) (c : List ℤ) (k : ℕ) :
    daySlice spd (c.drop spd) k = daySlice spd c (k + 1) := by
  simp [daySlice, List.drop_drop, Nat.succ_mul, Nat.add_comm]

theorem daySlice_nil (spd : ℕ) (k : ℕ) : daySlice spd [] k = [] := by
  simp [daySlice]

theorem isValidFrom_iff (maxH : ℚ) (spd : ℕ) (d : ℕ) (c : List ℤ) :
    isValidFrom maxH spd d c = true ↔
      ∀ k, k < d → (countNZ (daySlice spd c k) : ℚ) * hoursPerSlot ≤ maxH := by
  induction d generalizing c with
  | zero => simp [isValidFrom]
  | succ d ih =>
    rw [isValidFrom]
    by_cases h : (countNZ (c.take spd) : ℚ) * hoursPerSlot > maxH
    · rw [if_pos h]
      simp only [Bool.false_eq_true, false_iff, not_forall]
      exact ⟨0, Nat.succ_pos d, by rw [daySlice_zero]; exact not_le.mpr h⟩
    · rw [if_neg h, ih (c.drop spd)]
      constructor
      · intro hall k hk
        cases k with
        | zero => rw [daySlice_zero]; exact not_lt.mp h
        | succ k' => rw [← daySlice_succ_drop]; exact hall k' (by omega)
      · intro hall k hk
        rw [daySlice_succ_drop]
        exact hall (k + 1) (by omega)

theorem fixFrom_of_valid (raw : ℕ → List ℕ) (mslots : ℤ) (spd : ℕ) (d : ℕ) (c : List ℤ)
    (h : ∀ k, k < d → (countNZ (daySlice spd c k) : ℤ) ≤ mslots) :
    fixFrom raw mslots spd d c = some c := by
  induction d generalizing raw c with
  | zero => rfl
  | succ d ih =>
    have h0 : (countNZ (c.take spd) : ℤ) ≤ mslots := by
      have := h 0 (Nat.succ_pos d); rwa [daySlice_zero] at this
    have hrec := ih (fun i => raw (i + 1)) (c.drop spd)
      (fun k hk => by rw [daySlice_succ_drop]; exact h (k + 1) (by omega))
    simp [fixFrom, fixDay_of_le _ _ _ h0, hrec, List.take_append_drop]

theorem fixFrom_spec (mslots : ℤ) (hm : 0 ≤ mslots) (spd : ℕ) (d : ℕ) :
    ∀ (raw : ℕ → List ℕ) (c : List ℤ),
    ∃ out, fixFrom raw mslots spd d c = some out ∧
      out.length = c.length ∧
      (∀ j, out.getD j 0 = c.getD j 0 ∨ (c.getD j 0 ≠ 0 ∧ out.getD j 0 = 0)) ∧
      (∀ k, k < d → (countNZ (daySlice spd out k) : ℤ) ≤ mslots) ∧
      (∀ k, k < d → (countNZ (daySlice spd c k) : ℤ) ≤ mslots →
        daySlice spd out k = daySlice spd c k) := by
  induction d with
  | zero =>
    intro raw c
    exact ⟨c, rfl, rfl, fun j => Or.inl rfl, fun k hk => absurd hk (Nat.not_lt_zero k),
      fun k hk => absurd hk (Nat.not_lt_zero k)⟩
  | succ d ih =>
    intro raw c
    obtain ⟨h1, hs1, hlen1, hcnt1, hframe1⟩ := fixDay_spec (raw 0) mslots (c.take spd) hm
    obtain ⟨tl, hs2, hlen2, hframe2, hcnt2, hslice2⟩ := ih (fun i => raw (i + 1)) (c.drop spd)
    have hlen1' : h1.length = min spd c.length := by rw [hlen1, List.length_take]
    have hle1 : h1.length ≤ spd := by rw [hlen1']; exact Nat.min_le_left spd c.length
    have htl0 : c.length ≤ spd → tl = [] := by
      intro hcs
      have : tl.length = 0 := by rw [hlen2, List.length_drop]; omega
      exact List.eq_nil_of_length_eq_zero this
    have hslice0 : daySlice spd (h1 ++ tl) 0 = h1 := by
      rw [daySlice_zero, List.take_append_eq_append_take, List.take_of_length_le hle1]
      by_cases hcs : spd ≤ c.length
      · have : h1.length = spd := by rw [hlen1']; omega
        rw [this]
        simp
      · rw [htl0 (by omega)]
        simp
    have hsliceS : ∀ k, daySlice spd (h1 ++ tl) (k + 1) = daySlice spd tl k := by
      intro k
      have hdge : h1.length ≤ (k + 1) * spd := le_trans hle1 (by nlinarith)
      rw [daySlice, List.drop_append_eq_append_drop, List.drop_eq_nil_of_le hdge,
        List.nil_append]
      by_cases hcs : spd ≤ c.length
      · have hh : h1.length = spd := by rw [hlen1']; omega
        rw [hh]
        have : (k + 1) * spd - spd = k * spd := by rw [Nat.succ_mul]; omega
        rw [this]
        rfl
      · rw [htl0 (by omega), daySlice_nil]
        simp
    refine ⟨h1 ++ tl, ?_, ?_, ?_, ?_, ?_⟩
    · simp [fixFrom, hs1, hs2]
    · rw [List.length_append, hlen1, List.length_take, hlen2, List.length_drop]
      omega
    · intro j
      have hc : c.getD j 0 = (c.take spd ++ c.drop spd).getD j 0 := by
        rw [List.take_append_drop]
      rw [hc]
      by_cases hj : j < h1.length
      · rw [List.getD_append _ _ _ _ hj, List.getD_append _ _ _ _ (by rw [← hlen1]; exact hj)]
        exact hframe1 j
      · push_neg at hj
        rw [List.getD_append_right _ _ _ _ hj,
          List.getD_append_right _ _ _ _ (by rw [← hlen1]; exact hj), ← hlen1]
        exact hframe2 (j - h1.length)
    · intro k hk
      cases k with
      | zero => rw [hslice0]; exact hcnt1
      | succ k' => rw [hsliceS k']; exact hcnt2 k' (by omega)
    · intro k hk hvalid
      cases k with
      | zero =>
        have h0 : (countNZ (c.take spd) : ℤ) ≤ mslots := by
          rw [← daySlice_zero spd c]; exact hvalid
        have heq : fixDay (raw 0) mslots (c.take spd) = some (c.take spd) :=
          fixDay_of_le _ _ _ h0
        have hh1 : h1 = c.take spd := Option.some.inj (hs1.symm.trans heq)
        rw [hslice0, hh1, daySlice_zero]
      | succ k' =>
        rw [hsliceS k', ← daySlice_succ_drop]
        rw [← daySlice_succ_drop] at hvalid
        exact hslice2 k' (by omega) hvalid

/-- C3: for every chromosome and every random outcome, the repaired chromosome
is valid, repair is idempotent, and the capacity bridge holds: a day respects
the integer slot capacity int(max_hours_per_day / 1.5) exactly when its hours
respect max_hours_per_day. -/
theorem C3_fix_valid_idempotent (p : GAParams) (raw raw2 : ℕ → List ℕ) (c : List ℤ)
    (hm : 0 < p.maxHoursPerDay) :
    (fixChromosome p raw c).map (isValidChromosome p) = some true ∧
    (fixChromosome p raw c).bind (fixChromosome p raw2) = fixChromosome p raw c ∧
    (∀ n : ℕ, ((n : ℤ) ≤ maxSlots p ↔ (n : ℚ) * hoursPerSlot ≤ p.maxHoursPerDay)) := by
  have hm0 : 0 ≤ p.maxHoursPerDay := hm.le
  have hms := maxSlots_nonneg p hm0
  obtain ⟨out, hs, hlen, hframe, hcnt, hslice⟩ :=
    fixFrom_spec (maxSlots p) hms p.slotsPerDay p.days raw c
  have hvalid : isValidChromosome p out = true := by
    rw [isValidChromosome, isValidFrom_iff]
    intro k hk
    exact (le_maxSlots_iff p hm0 _).mp (hcnt k hk)
  refine ⟨?_, ?_, fun n => le_maxSlots_iff p hm0 n⟩
  · rw [fixChromosome, hs, Option.map_some', hvalid]
  · rw [fixChromosome, hs, Option.some_bind, fixChromosome]
    exact fixFrom_of_valid raw2 (maxSlots p) p.slotsPerDay p.days out hcnt

/-- Witness for C3 at a concrete overloaded chromosome. -/
theorem C3_fix_valid_idempotent_witness :
    (fixChromosome wParams (fun _ => []) [1, 1]).map (isValidChromosome wParams) = some true ∧
    ((2 : ℤ) ≤ maxSlots wParams ↔ (2 : ℚ) * hoursPerSlot ≤ wParams.maxHoursPerDay) :=
  ⟨(C3_fix_valid_idempotent wParams (fun _ => []) (fun _ => []) [1, 1]
      (by norm_num [wParams])).1,
   (C3_fix_valid_idempotent wParams (fun _ => []) (fun _ => []) [1, 1]
      (by norm_num [wParams])).2.2 2⟩

/-- C10: repair only turns course slots into rest (never the other way and never
changing a rest slot), leaves every day that already respects the capacity
untouched, and is the identity on valid chromosomes. -/
theorem C10_fix_frame (p : GAParams) (raw : ℕ → List ℕ) (c f : List ℤ)
    (hm : 0 < p.maxHoursPerDay) (hf : fixChromosome p raw c = some f) :
    (∀ j, f.getD j 0 = c.getD j 0 ∨ (c.getD j 0 ≠ 0 ∧ f.getD j 0 = 0)) ∧
    (∀ d, d < p.days → (countNZ (daySlice p.slotsPerDay c d) : ℤ) ≤ maxSlots p →
      daySlice p.slotsPerDay f d = daySlice p.slotsPerDay c d) ∧
    (isValidChromosome p c = true → f = c) := by
  have hm0 : 0 ≤ p.maxHoursPerDay := hm.le
  have hms := maxSlots_nonneg p hm0
  obtain ⟨out, hs, hlen, hframe, hcnt, hslice⟩ :=
    fixFrom_spec (maxSlots p) hms p.slotsPerDay p.days raw c
  have hout : f = out := by
    rw [fixChromosome] at hf
    exact Option.some.inj (hf.symm.trans hs)
  subst hout
  refine ⟨hframe, hslice, ?_⟩
  intro hvc
  have hall : ∀ k, k < p.days → (countNZ (daySlice p.slotsPerDay c k) : ℤ) ≤ maxSlots p := by
    intro k hk
    rw [isValidChromosome, isValidFrom_iff] at hvc
    exact (le_maxSlots_iff p hm0 _).mpr (hvc k hk)
  have := fixFrom_of_valid raw (maxSlots p) p.slotsPerDay p.days c hall
  exact Option.some.inj (hs.symm.trans this)

theorem maxSlots_wParams : maxSlots wParams = 2 := by
  have h2 : wParams.maxHoursPerDay / hoursPerSlot = 2 := by
    norm_num [wParams, hoursPerSlot]
  rw [maxSlots, h2]
  simp only [pyInt, Rat.num_ofNat, Rat.den_ofNat]
  decide

/-- Witness for C10: repairing an already valid chromosome changes nothing. -/
theorem C10_fix_frame_witness :
    daySlice wParams.slotsPerDay [1, 0] 0 = daySlice wParams.slotsPerDay [1, 0] 0 ∧
    ([1, 0] : List ℤ) = [1, 0] := by
  have hcond : ∀ k, k < wParams.days →
      (countNZ (daySlice wParams.slotsPerDay [1, 0] k) : ℤ) ≤ maxSlots wParams := by
    intro k hk
    have hk1 : k = 0 := by
      have : k < 1 := by simpa [wParams] using hk
      omega
    subst hk1
    rw [maxSlots_wParams]
    decide
  have h := C10_fix_frame wParams (fun _ => []) [1, 0] [1, 0] (by norm_num [wParams])
    (by rw [fixChromosome]; exact fixFrom_of_valid _ _ _ _ _ hcond)
  refine ⟨h.2.1 0 (by norm_num [wParams]) (by rw [maxSlots_wParams]; decide), h.2.2 ?_⟩
  norm_num [isValidChromosome, isValidFrom, countNZ, wParams, hoursPerSlot, daySlice]

theorem chooseCourseId_ok (raw : ℤ) (ids : List ℤ) :
    chooseCourseId raw ids = 0 ∨ chooseCourseId raw ids ∈ ids := by
  rw [chooseCourseId]
  split_ifs with h
  · rcases List.mem_append.mp h with h' | h'
    · exact Or.inr h'
    · simp at h'
      exact Or.inl h'
  · exact Or.inl rfl

theorem createDayGo_length (coin : ℕ → Bool) (pick : ℕ → ℤ) (ids : List ℤ) (avail : ℤ)
    (used slot rem : ℕ) : (createDayGo coin pick ids avail used slot rem).length = rem := by
  induction rem generalizing used slot with
  | zero => rfl
  | succ rem ih =>
    simp only [createDayGo]
    split_ifs <;> simp [ih]

theorem createDayGo_genes (coin : ℕ → Bool) (pick : ℕ → ℤ) (ids : List ℤ) (avail : ℤ)
    (used slot rem : ℕ) :
    ∀ g ∈ createDayGo coin pick ids avail used slot rem, g = 0 ∨ g ∈ ids := by
  induction rem generalizing used slot with
  | zero =>
    intro g hg
    simp [createDayGo] at hg
  | succ rem ih =>
    intro g hg
    simp only [createDayGo] at hg
    by_cases h : (used : ℤ) < avail
    · rw [if_pos h] at hg
      rcases List.mem_cons.mp hg with hh | hg'
      · subst hh
        by_cases hc : coin slot
        · simpa [hc] using chooseCourseId_ok (pick slot) ids
        · simp [hc]
      · exact ih _ _ _ hg'
    · rw [if_neg h] at hg
      rcases List.mem_cons.mp hg with hh | hg'
      · exact Or.inl hh
      · exact ih _ _ _ hg'

theorem createRandomChromosome_length (p : GAParams) (coin : ℕ → ℕ → Bool)
    (pick : ℕ → ℕ → ℤ) :
    (createRandomChromosome p coin pick).length = chromosomeLength p := by
  rw [createRandomChromosome, List.length_flatten, List.map_map]
  have hconst : (List.range p.days).map
      (List.length ∘ fun d => createDayGo (coin d) (pick d) (courseIds p) (maxSlots p) 0 0
        p.slotsPerDay) = (List.range p.days).map (fun _ => p.slotsPerDay) :=
    List.map_congr_left (fun d _ => createDayGo_length _ _ _ _ _ _ _)
  rw [hconst, List.map_const', List.sum_replicate, List.length_range, smul_eq_mul,
    chromosomeLength, Nat.mul_comm]

theorem createRandomChromosome_genes (p : GAParams) (coin : ℕ → ℕ → Bool)
    (pick : ℕ → ℕ → ℤ) : genesOK p (createRandomChromosome p coin pick) := by
  intro g hg
  rw [createRandomChromosome] at hg
  obtain ⟨block, hblock, hgb⟩ := List.mem_flatten.mp hg
  obtain ⟨d, _, rfl⟩ := List.mem_map.mp hblock
  exact createDayGo_genes _ _ _ _ _ _ _ g hgb

theorem genes_sublist (ids : List ℤ) (c out : List ℤ) (hlen : out.length = c.length)
    (hframe : ∀ j, out.getD j 0 = c.getD j 0 ∨ (c.getD j 0 ≠ 0 ∧ out.getD j 0 = 0))
    (hc : ∀ g ∈ c, g = 0 ∨ g ∈ ids) : ∀ g ∈ out, g = 0 ∨ g ∈ ids := by
  intro g hg
  obtain ⟨j, hj, hgj⟩ := List.mem_iff_getElem.mp hg
  have hgd : out.getD j 0 = g := by
    rw [List.getD_eq_getElem _ _ hj, hgj]
  rcases hframe j with h | h
  · have hjc : j < c.length := by omega
    have hcg : c.getD j 0 ∈ c := by
      rw [List.getD_eq_getElem _ _ hjc]
      exact List.getElem_mem hjc
    rw [hgd] at h
    rw [h]
    exact hc _ hcg
  · rw [hgd] at h
    exact Or.inl h.2

theorem mutateStep_length (p : GAParams) (coin : ℕ → Bool) (pick : ℕ → ℤ) (c : List ℤ)
    (i : ℕ) : (mutateStep p coin pick c i).length = c.length := by
  simp only [mutateStep]
  split_ifs <;> simp [List.length_set]

theorem mutateStep_genes (p : GAParams) (coin : ℕ → Bool) (pick : ℕ → ℤ) (c : List ℤ)
    (i : ℕ) (hc : ∀ g ∈ c, g = 0 ∨ g ∈ courseIds p) :
    ∀ g ∈ mutateStep p coin pick c i, g = 0 ∨ g ∈ courseIds p := by
  intro g hg
  simp only [mutateStep] at hg
  split_ifs at hg
  · rcases List.mem_or_eq_of_mem_set hg with h | h
    · exact hc _ h
    · subst h
      exact chooseCourseId_ok _ _
  · rcases List.mem_or_eq_of_mem_set hg with h | h
    · exact hc _ h
    · subst h
      exact chooseCourseId_ok _ _
  · exact hc _ hg
  · exact hc _ hg

theorem mutateGo_length (p : GAParams) (coin : ℕ → Bool) (pick : ℕ → ℤ) (i rem : ℕ)
    (c : List ℤ) : (mutateGo p coin pick i rem c).length = c.length := by
  induction rem generalizing i c with
  | zero => rfl
  | succ rem ih => rw [mutateGo, ih, mutateStep_length]

theorem mutateGo_genes (p : GAParams) (coin : ℕ → Bool) (pick : ℕ → ℤ) (i rem : ℕ)
    (c : List ℤ) (hc : ∀ g ∈ c, g = 0 ∨ g ∈ courseIds p) :
    ∀ g ∈ mutateGo p coin pick i rem c, g = 0 ∨ g ∈ courseIds p := by
  induction rem generalizing i c with
  | zero => exact hc
  | succ rem ih =>
    rw [mutateGo]
    exact ih _ _ (mutateStep_genes p coin pick c i hc)

theorem fixChromosome_spec (p : GAParams) (raw : ℕ → List ℕ) (c : List ℤ)
    (hms : 0 ≤ maxSlots p) :
    ∃ f, fixChromosome p raw c = some f ∧ f.length = c.length ∧
      (∀ j, f.getD j 0 = c.getD j 0 ∨ (c.getD j 0 ≠ 0 ∧ f.getD j 0 = 0)) ∧
      (∀ k, k < p.days → (countNZ (daySlice p.slotsPerDay f k) : ℤ) ≤ maxSlots p) := by
  obtain ⟨out, hs, hlen, hframe, hcnt, hslice⟩ :=
    fixFrom_spec (maxSlots p) hms p.slotsPerDay p.days raw c
  exact ⟨out, hs, hlen, hframe, hcnt⟩

theorem mutate_spec (p : GAParams) (coin : ℕ → Bool) (pick : ℕ → ℤ) (fraw : ℕ → List ℕ)
    (c : List ℤ) (hms : 0 ≤ maxSlots p) (hc : ∀ g ∈ c, g = 0 ∨ g ∈ courseIds p) :
    ∃ m, mutate p coin pick fraw c = some m ∧ m.length = c.length ∧
      (∀ g ∈ m, g = 0 ∨ g ∈ courseIds p) := by
  rw [mutate]
  set mm := mutateGo p coin pick 0 c.length c with hmm
  have hmmlen : mm.length = c.length := mutateGo_length p coin pick 0 c.length c
  have hmmg : ∀ g ∈ mm, g = 0 ∨ g ∈ courseIds p := mutateGo_genes p coin pick 0 c.length c hc
  by_cases hv : isValidChromosome p mm = true
  · exact ⟨mm, by rw [if_pos hv], hmmlen, hmmg⟩
  · obtain ⟨f, hf, hflen, hframe, _⟩ := fixChromosome_spec p fraw mm hms
    refine ⟨f, ?_, by rw [hflen, hmmlen], genes_sublist (courseIds p) mm f hflen hframe hmmg⟩
    rw [if_neg hv]
    exact hf

/-- C9: every chromosome produced by create_random_chromosome has length
days * slots_per_day with every gene either 0 or a configured course id, and
this invariant is preserved by mutate and by fix_chromosome. -/
theorem C9_gene_invariant (p : GAParams) (hm : 0 < p.maxHoursPerDay) :
    (∀ coin pick, (createRandomChromosome p coin pick).length = chromosomeLength p ∧
      genesOK p (createRandomChromosome p coin pick)) ∧
    (∀ coin pick fraw c m, c.length = chromosomeLength p → genesOK p c →
      mutate p coin pick fraw c = some m →
      m.length = chromosomeLength p ∧ genesOK p m) ∧
    (∀ raw c f, c.length = chromosomeLength p → genesOK p c →
      fixChromosome p raw c = some f →
      f.length = chromosomeLength p ∧ genesOK p f) := by
  have hms := maxSlots_nonneg p hm.le
  refine ⟨fun coin pick => ⟨createRandomChromosome_length p coin pick,
    createRandomChromosome_genes p coin pick⟩, ?_, ?_⟩
  · intro coin pick fraw c m hlen hg hsome
    obtain ⟨m2, hm2, hm2len, hm2g⟩ := mutate_spec p coin pick fraw c hms hg
    have heq : m = m2 := Option.some.inj (hsome.symm.trans hm2)
    rw [heq]
    exact ⟨by rw [hm2len, hlen], hm2g⟩
  · intro raw c f hlen hg hsome
    obtain ⟨f2, hf2, hf2len, hf2frame, _⟩ := fixChromosome_spec p raw c hms
    have heq : f = f2 := Option.some.inj (hsome.symm.trans hf2)
    rw [heq]
    exact ⟨by rw [hf2len, hlen], genes_sublist (courseIds p) c f2 hf2len hf2frame hg⟩

/-- Witness for C9: the invariant transported through fix_chromosome at a
concrete valid chromosome. -/
theorem C9_gene_invariant_witness :
    ([1, 1] : List ℤ).length = chromosomeLength wParams ∧ genesOK wParams [1, 1] := by
  have hcond : ∀ k, k < wParams.days →
      (countNZ (daySlice wParams.slotsPerDay [1, 1] k) : ℤ) ≤ maxSlots wParams := by
    intro k hk
    have hk1 : k = 0 := by
      have : k < 1 := by simpa [wParams] using hk
      omega
    subst hk1
    rw [maxSlots_wParams]
    decide
  exact (C9_gene_invariant wParams (by norm_num [wParams])).2.2 (fun _ => []) [1, 1] [1, 1]
    (by decide) (by unfold genesOK; decide)
    (by rw [fixChromosome]; exact fixFrom_of_valid _ _ _ _ _ hcond)

theorem pyRandint_spec (raw lo hi : ℕ) (h : lo ≤ hi) :
    ∃ v, pyRandint raw lo hi = some v ∧ lo ≤ v ∧ v ≤ hi := by
  rw [pyRandint, if_pos h]
  by_cases hc : lo ≤ raw ∧ raw ≤ hi
  · exact ⟨raw, by rw [if_pos hc], hc.1, hc.2⟩
  · exact ⟨lo, by rw [if_neg hc], le_refl lo, h⟩

theorem frame_mem (c out : List ℤ) (hlen : out.length = c.length)
    (hframe : ∀ j, out.getD j 0 = c.getD j 0 ∨ (c.getD j 0 ≠ 0 ∧ out.getD j 0 = 0)) :
    ∀ g ∈ out, g ∈ c ∨ g = 0 := by
  intro g hg
  obtain ⟨j, hj, hgj⟩ := List.mem_iff_getElem.mp hg
  have hgd : out.getD j 0 = g := by
    rw [List.getD_eq_getElem _ _ hj, hgj]
  rcases hframe j with h | h
  · have hjc : j < c.length := by omega
    have hcg : c.getD j 0 ∈ c := by
      rw [List.getD_eq_getElem _ _ hjc]
      exact List.getElem_mem hjc
    rw [hgd] at h
    rw [h]
    exact Or.inl hcg
  · rw [hgd] at h
    exact Or.inr h.2

theorem maxH_nonneg_of_valid (p : GAParams) (c : List ℤ) (hd : 1 ≤ p.days)
    (hv : isValidChromosome p c = true) : 0 ≤ p.maxHoursPerDay := by
  rw [isValidChromosome, isValidFrom_iff] at hv
  have h0 := hv 0 hd
  have hn : (0 : ℚ) ≤ (countNZ (daySlice p.slotsPerDay c 0) : ℚ) * hoursPerSlot :=
    mul_nonneg (Nat.cast_nonneg _) hoursPerSlot_pos.le
  linarith

theorem fix_valid (p : GAParams) (raw : ℕ → List ℕ) (c : List ℤ)
    (hm0 : 0 ≤ p.maxHoursPerDay) :
    ∃ f, fixChromosome p raw c = some f ∧ f.length = c.length ∧
      (∀ j, f.getD j 0 = c.getD j 0 ∨ (c.getD j 0 ≠ 0 ∧ f.getD j 0 = 0)) ∧
      isValidChromosome p f = true := by
  obtain ⟨f, hs, hlen, hframe, hcnt⟩ := fixChromosome_spec p raw c (maxSlots_nonneg p hm0)
  refine ⟨f, hs, hlen, hframe, ?_⟩
  rw [isValidChromosome, isValidFrom_iff]
  intro k hk
  exact (le_maxSlots_iff p hm0 _).mp (hcnt k hk)

theorem validateOrFix_spec (p : GAParams) (raw : ℕ → List ℕ) (c : List ℤ)
    (hm0 : 0 ≤ p.maxHoursPerDay) :
    ∃ cf, (if isValidChromosome p c then some c else fixChromosome p raw c) = some cf ∧
      cf.length = c.length ∧ isValidChromosome p cf = true ∧
      (∀ g ∈ cf, g ∈ c ∨ g = 0) := by
  by_cases hv : isValidChromosome p c = true
  · exact ⟨c, by rw [if_pos hv], rfl, hv, fun g hg => Or.inl hg⟩
  · obtain ⟨f, hs, hlen, hframe, hval⟩ := fix_valid p raw c hm0
    exact ⟨f, by rw [if_neg hv]; exact hs, hlen, hval, frame_mem c f hlen hframe⟩

theorem crossover_spec (p : GAParams) (coin : Bool) (pointRaw : ℕ) (fr1 fr2 : ℕ → List ℕ)
    (p1 p2 : List ℤ) (hm0 : 0 ≤ p.maxHoursPerDay) (hL : 2 ≤ p1.length)
    (hlen12 : p2.length = p1.length) :
    ∃ c1 c2, crossover p coin pointRaw fr1 fr2 p1 p2 = some (c1, c2) ∧
      c1.length = p1.length ∧ c2.length = p1.length ∧
      (∀ g ∈ c1, (g ∈ p1 ∨ g ∈ p2) ∨ g = 0) ∧ (∀ g ∈ c2, (g ∈ p1 ∨ g ∈ p2) ∨ g = 0) ∧
      (coin = true → isValidChromosome p c1 = true ∧ isValidChromosome p c2 = true) ∧
      (coin = false → c1 = p1 ∧ c2 = p2) := by
  cases coin with
  | false =>
    refine ⟨p1, p2, rfl, rfl, hlen12, fun g hg => Or.inl (Or.inl hg),
      fun g hg => Or.inl (Or.inr hg), fun hcontra => by simp at hcontra,
      fun _ => ⟨rfl, rfl⟩⟩
  | true =>
    obtain ⟨point, hpt, hpt1, hpt2⟩ := pyRandint_spec pointRaw 1 (p1.length - 1) (by omega)
    have hptle : point ≤ p1.length := by omega
    have hlen1 : (p1.take point ++ p2.drop point).length = p1.length := by
      rw [List.length_append, List.length_take, List.length_drop, hlen12]
      omega
    have hlen2 : (p2.take point ++ p1.drop point).length = p1.length := by
      rw [List.length_append, List.length_take, List.length_drop, hlen12]
      omega
    obtain ⟨c1f, hc1, hc1len, hc1val, hc1mem⟩ :=
      validateOrFix_spec p fr1 (p1.take point ++ p2.drop point) hm0
    obtain ⟨c2f, hc2, hc2len, hc2val, hc2mem⟩ :=
      validateOrFix_spec p fr2 (p2.take point ++ p1.drop point) hm0
    refine ⟨c1f, c2f, ?_, by rw [hc1len, hlen1], by rw [hc2len, hlen2], ?_, ?_,
      fun _ => ⟨hc1val, hc2val⟩, fun hcontra => by simp at hcontra⟩
    · simp only [crossover, hpt, Option.bind_eq_bind, Option.some_bind,
        eq_self_iff_true, if_true]
      by_cases hb1 : isValidChromosome p (List.take point p1 ++ List.drop point p2) = true
      · rw [if_pos hb1] at hc1 ⊢
        by_cases hb2 : isValidChromosome p (List.take point p2 ++ List.drop point p1) = true
        · rw [if_pos hb2] at hc2 ⊢
          rw [Option.some.inj hc1, Option.some.inj hc2]
          rfl
        · rw [if_neg hb2] at hc2 ⊢
          rw [hc2, Option.some_bind, Option.some.inj hc1]
          rfl
      · rw [if_neg hb1] at hc1 ⊢
        rw [hc1, Option.some_bind]
        by_cases hb2 : isValidChromosome p (List.take point p2 ++ List.drop point p1) = true
        · rw [if_pos hb2] at hc2 ⊢
          rw [Option.some.inj hc2]
          rfl
        · rw [if_neg hb2] at hc2 ⊢
          rw [hc2, Option.some_bind]
          rfl
    · intro g hg
      rcases hc1mem g hg with h | h
      · rcases List.mem_append.mp h with h' | h'
        · exact Or.inl (Or.inl (List.take_subset _ _ h'))
        · exact Or.inl (Or.inr (List.drop_subset _ _ h'))
      · exact Or.inr h
    · intro g hg
      rcases hc2mem g hg with h | h
      · rcases List.mem_append.mp h with h' | h'
        · exact Or.inl (Or.inr (List.take_subset _ _ h'))
        · exact Or.inl (Or.inl (List.drop_subset _ _ h'))
      · exact Or.inr h

/-- C4 is refuted by the no-cut branch: with an invalid parent pair and the
no-cut draw, crossover returns the parents unchanged and they fail is_valid
(the day holds 2 slots = 3 hours against a 1.5 hour cap). -/
theorem C4_counterexample :
    crossover c4Params false 0 (fun _ => []) (fun _ => []) [1, 1] [1, 1] =
      some ([1, 1], [1, 1]) ∧
    ([1, 1] : List ℤ).length = chromosomeLength c4Params ∧
    isValidChromosome c4Params [1, 1] = false := by
  refine ⟨rfl, by decide, ?_⟩
  norm_num [isValidChromosome, isValidFrom, countNZ, c4Params, hoursPerSlot]

/-- C4 amended: for parents of the configured length that are themselves valid
(as they are inside evolve) and a chromosome length of at least 2, crossover
returns two sequences of the parent length, both valid, and the no-cut branch
returns exact copies of the parents. -/
theorem C4_amended_crossover (p : GAParams) (coin : Bool) (pointRaw : ℕ)
    (fr1 fr2 : ℕ → List ℕ) (p1 p2 : List ℤ)
    (h1 : p1.length = chromosomeLength p) (h2 : p2.length = chromosomeLength p)
    (hL : 2 ≤ chromosomeLength p)
    (hv1 : isValidChromosome p p1 = true) (hv2 : isValidChromosome p p2 = true) :
    ((crossover p coin pointRaw fr1 fr2 p1 p2).map
      (fun r => (r.1.length, r.2.length, isValidChromosome p r.1, isValidChromosome p r.2))
      = some (chromosomeLength p, chromosomeLength p, true, true)) ∧
    (coin = false → crossover p coin pointRaw fr1 fr2 p1 p2 = some (p1, p2)) := by
  have hd : 1 ≤ p.days := by
    by_contra hcon
    have : p.days = 0 := by omega
    rw [chromosomeLength, this] at hL
    omega
  have hm0 : 0 ≤ p.maxHoursPerDay := maxH_nonneg_of_valid p p1 hd hv1
  obtain ⟨c1, c2, hs, hl1, hl2, _, _, hvt, hvf⟩ :=
    crossover_spec p coin pointRaw fr1 fr2 p1 p2 hm0 (h1 ▸ hL) (by rw [h1, h2])
  constructor
  · rw [hs, Option.map_some']
    cases coin with
    | false =>
      obtain ⟨e1, e2⟩ := hvf rfl
      rw [e1, e2]
      simp [h1, h2, hv1, hv2]
    | true =>
      obtain ⟨v1, v2⟩ := hvt rfl
      rw [v1, v2, hl1, hl2, h1]
  · intro hcoin
    subst hcoin
    obtain ⟨e1, e2⟩ := hvf rfl
    rw [hs, e1, e2]

/-- Witness for the amended C4 at a concrete valid parent pair. -/
theorem C4_amended_crossover_witness :
    (crossover wParams true 1 (fun _ => []) (fun _ => []) [1, 0] [0, 2]).map
      (fun r => (r.1.length, r.2.length, isValidChromosome wParams r.1,
        isValidChromosome wParams r.2)) =
      some (chromosomeLength wParams, chromosomeLength wParams, true, true) :=
  (C4_amended_crossover wParams true 1 (fun _ => []) (fun _ => []) [1, 0] [0, 2]
    (by decide) (by decide) (by decide)
    (by norm_num [isValidChromosome, isValidFrom, countNZ, wParams, hoursPerSlot])
    (by norm_num [isValidChromosome, isValidFrom, countNZ, wParams, hoursPerSlot])).1

theorem mapO_eq_some_of {α β : Type} (f : α → Option β) (g : α → β) (l : List α)
    (h : ∀ a ∈ l, f a = some (g a)) : mapO f l = some (l.map g) := by
  induction l with
  | nil => rfl
  | cons a t ih =>
    simp only [mapO, h a (List.mem_cons_self a t), Option.bind_eq_bind, Option.some_bind,
      ih (fun x hx => h x (List.mem_cons_of_mem a hx)), List.map_cons]
    rfl

theorem lookupDifficulty_eq_some (courses : List Course) (s : ℤ)
    (h : ∃ co ∈ courses, co.id = s) :
    lookupDifficulty courses s = some (difficultyD courses s) := by
  obtain ⟨co, hmem, hid⟩ := h
  have hsome : (courses.find? (fun c => c.id == s)).isSome := by
    rw [List.find?_isSome]
    exact ⟨co, hmem, by simp [hid]⟩
  obtain ⟨c0, hc0⟩ := Option.isSome_iff_exists.mp hsome
  rw [lookupDifficulty, difficultyD, hc0]
  rfl

theorem overload_if_eq (x m : ℚ) : (if x > m then (x - m) ^ 2 else 0) = (pyMax 0 (x - m)) ^ 2 := by
  rw [pyMax]
  split_ifs with h1 h2 h2
  · rfl
  · linarith
  · linarith
  · norm_num

theorem dayContrib_eq (p : GAParams) (ds : List ℤ)
    (hpre : ∀ s ∈ ds, s ≠ 0 → ∃ co ∈ p.courses, co.id = s) :
    dayContrib p ds = some
      ((pyMax 0 ((countNZ ds : ℚ) * hoursPerSlot - p.maxHoursPerDay)) ^ 2,
       calculateStress ((countNZ ds : ℚ) * hoursPerSlot)
        (if (ds.filter (fun s => decide (s ≠ 0))).isEmpty then 0
         else (((ds.filter (fun s => decide (s ≠ 0))).map (difficultyD p.courses)).sum) /
           (((ds.filter (fun s => decide (s ≠ 0))).length : ℚ)))) := by
  have hover := overload_if_eq ((countNZ ds : ℚ) * hoursPerSlot) p.maxHoursPerDay
  by_cases hnz : (ds.filter (fun s => decide (s ≠ 0))).isEmpty
  · simp only [dayContrib, hnz, if_true, hover, Option.bind_eq_bind, Option.some_bind]
    rfl
  · have hmap : mapO (lookupDifficulty p.courses) (ds.filter (fun s => decide (s ≠ 0))) =
        some ((ds.filter (fun s => decide (s ≠ 0))).map (difficultyD p.courses)) := by
      apply mapO_eq_some_of
      intro s hs
      have hmem := List.mem_filter.mp hs
      exact lookupDifficulty_eq_some p.courses s
        (hpre s hmem.1 (by simpa using hmem.2))
    simp only [dayContrib, hnz, if_false, hover, hmap, Option.bind_eq_bind, Option.some_bind,
      List.length_map, Bool.false_eq_true]
    rfl

theorem evaluateFitness_eq (p : GAParams) (c : List ℤ)
    (hpre : ∀ g ∈ c, g ≠ 0 → ∃ co ∈ p.courses, co.id = g) :
    evaluateFitness p c = some (specFitness p c) := by
  have hparts : mapO (fun day => dayContrib p (daySlice p.slotsPerDay c day))
      (List.range p.days) = some ((List.range p.days).map (fun day =>
        ((pyMax 0 (specDayHours p c day - p.maxHoursPerDay)) ^ 2,
         calculateStress (specDayHours p c day) (specAvgDifficulty p c day)))) := by
    apply mapO_eq_some_of
    intro day _
    have hsub : ∀ s ∈ daySlice p.slotsPerDay c day, s ≠ 0 → ∃ co ∈ p.courses, co.id = s := by
      intro s hs hs0
      have : s ∈ c := by
        rw [daySlice] at hs
        exact List.drop_subset _ c (List.take_subset _ _ hs)
      exact hpre s this hs0
    rw [dayContrib_eq p (daySlice p.slotsPerDay c day) hsub]
    rfl
  simp only [evaluateFitness, hparts, Option.bind_eq_bind, Option.some_bind,
    List.map_map]
  rw [specFitness, specOverload, specStressPenalty, specCoverage]
  simp only [List.map_map, Function.comp_def]
  rfl

theorem genesOK_pre (p : GAParams) (c : List ℤ) (hg : genesOK p c) :
    ∀ g ∈ c, g ≠ 0 → ∃ co ∈ p.courses, co.id = g := by
  intro g hmem hne
  rcases hg g hmem with h | h
  · exact absurd h hne
  · obtain ⟨co, hco, hid⟩ := List.mem_map.mp h
    exact ⟨co, hco, hid⟩

/-- C5: under the precondition that every non-zero gene is a configured id,
evaluate_fitness returns exactly max(0, 5 coverage - 2 overload - 3 stress) with
the three summands as the spec words them, and the result is never negative. -/
theorem C5_fitness_formula (p : GAParams) (c : List ℤ)
    (hpre : ∀ g ∈ c, g ≠ 0 → ∃ co ∈ p.courses, co.id = g) :
    evaluateFitness p c = some (specFitness p c) ∧ 0 ≤ specFitness p c := by
  refine ⟨evaluateFitness_eq p c hpre, ?_⟩
  rw [specFitness]
  exact pyMax_nonneg_left 0 _ le_rfl

/-- Witness for C5 at a concrete schedule over the sample courses. -/
theorem C5_fitness_formula_witness :
    evaluateFitness wParams [1, 0] = some (specFitness wParams [1, 0]) ∧
    0 ≤ specFitness wParams [1, 0] :=
  C5_fitness_formula wParams [1, 0] (by decide)

theorem pyListMax_spec (l : List ℚ) (h : l ≠ []) :
    ∃ m, pyListMax l = some m ∧ m ∈ l := by
  cases l with
  | nil => exact absurd rfl h
  | cons x xs =>
    refine ⟨xs.foldl pyMax x, rfl, ?_⟩
    have hgen : ∀ (ys : List ℚ) (b : ℚ), b ∈ x :: xs → (∀ y ∈ ys, y ∈ x :: xs) →
        ys.foldl pyMax b ∈ x :: xs := by
      intro ys
      induction ys with
      | nil =>
        intro b hb _
        exact hb
      | cons y ys ih =>
        intro b hb hys
        simp only [List.foldl_cons]
        apply ih
        · rw [pyMax]
          by_cases hk : b < y
          · rw [if_pos hk]
            exact hys y (List.mem_cons_self _ _)
          · rw [if_neg hk]
            exact hb
        · intro z hz
          exact hys z (List.mem_cons_of_mem _ hz)
    exact hgen xs x (List.mem_cons_self _ _) (fun y hy => List.mem_cons_of_mem _ hy)

theorem pyMaxBy_spec (key : ℕ → ℚ) (l : List ℕ) (h : l ≠ []) :
    ∃ w, pyMaxBy key l = some w ∧ w ∈ l := by
  cases l with
  | nil => exact absurd rfl h
  | cons x xs =>
    refine ⟨_, rfl, ?_⟩
    have hgen : ∀ (ys : List ℕ) (b : ℕ), b ∈ x :: xs → (∀ y ∈ ys, y ∈ x :: xs) →
        ys.foldl (fun b i => if key b < key i then i else b) b ∈ x :: xs := by
      intro ys
      induction ys with
      | nil =>
        intro b hb _
        exact hb
      | cons y ys ih =>
        intro b hb hys
        simp only [List.foldl_cons]
        apply ih
        · by_cases hk : key b < key y
          · rw [if_pos hk]
            exact hys y (List.mem_cons_self _ _)
          · rw [if_neg hk]
            exact hb
        · intro z hz
          exact hys z (List.mem_cons_of_mem _ hz)
    exact hgen xs x (List.mem_cons_self _ _) (fun y hy => List.mem_cons_of_mem _ hy)

theorem selectionGo_spec (pop : List (List ℤ)) (scores : List ℚ) (h3 : 3 ≤ pop.length) :
    ∀ (r : ℕ) (sraw : ℕ → List ℕ),
    ∃ sel, selectionGo pop scores sraw r = some sel ∧ sel.length = r ∧ ∀ x ∈ sel, x ∈ pop := by
  intro r
  induction r with
  | zero =>
    intro sraw
    exact ⟨[], rfl, rfl, by simp⟩
  | succ r ih =>
    intro sraw
    obtain ⟨idx, hsi, hilen, hind, hisub⟩ := pySample_spec (sraw 0) (List.range pop.length) 3
      (List.nodup_range _) (by simpa using h3)
    have hne : idx ≠ [] := by
      intro hcon
      rw [hcon] at hilen
      simp at hilen
    obtain ⟨w, hw, hwmem⟩ := pyMaxBy_spec (fun i => scores.getD i 0) idx hne
    have hwlt : w < pop.length := List.mem_range.mp (hisub w hwmem)
    obtain ⟨rest, hrest, hrlen, hrmem⟩ := ih (fun i => sraw (i + 1))
    refine ⟨pop.get ⟨w, hwlt⟩ :: rest, ?_, by simp [hrlen], ?_⟩
    · simp only [selectionGo, hsi, hw, hrest, List.get?_eq_get hwlt, Option.bind_eq_bind,
        Option.some_bind]
      rfl
    · intro x hx
      rcases List.mem_cons.mp hx with hh | hh
      · rw [hh]
        exact List.get_mem pop _ hwlt
      · exact hrmem x hh

theorem selection_spec (pop : List (List ℤ)) (scores : List ℚ) (sraw : ℕ → List ℕ)
    (h3 : 3 ≤ pop.length) :
    ∃ sel, selection pop scores sraw = some sel ∧ sel.length = pop.length ∧
      ∀ x ∈ sel, x ∈ pop :=
  selectionGo_spec pop scores h3 pop.length sraw

theorem selectionGo_none (pop : List (List ℤ)) (scores : List ℚ) (sraw : ℕ → List ℕ)
    (r : ℕ) (h : pop.length < 3) (hr : 1 ≤ r) :
    selectionGo pop scores sraw r = none := by
  cases r with
  | zero => omega
  | succ r =>
    simp only [selectionGo, pySample, List.length_range, if_neg (by omega : ¬3 ≤ pop.length),
      Option.bind_eq_bind, Option.none_bind]

theorem createInitialPopulation_spec (p : GAParams) (coin : ℕ → ℕ → ℕ → Bool)
    (pick : ℕ → ℕ → ℕ → ℤ) (n : ℕ) :
    (createInitialPopulation p coin pick n).length = n ∧
    ∀ x ∈ createInitialPopulation p coin pick n,
      x.length = chromosomeLength p ∧ genesOK p x := by
  constructor
  · rw [createInitialPopulation, List.length_map, List.length_range]
  · intro x hx
    obtain ⟨j, _, rfl⟩ := List.mem_map.mp hx
    exact ⟨createRandomChromosome_length p _ _, createRandomChromosome_genes p _ _⟩

theorem findIdx?_of_mem (l : List ℚ) (m : ℚ) (h : m ∈ l) :
    ∃ i, l.findIdx? (fun x => decide (x = m)) = some i ∧ i < l.length := by
  induction l with
  | nil => simp at h
  | cons a t ih =>
    by_cases ha : a = m
    · refine ⟨0, ?_, by simp⟩
      rw [List.findIdx?_cons]
      simp [ha]
    · have hmt : m ∈ t := by
        rcases List.mem_cons.mp h with hh | hh
        · exact absurd hh.symm ha
        · exact hh
      obtain ⟨i, hi, hilt⟩ := ih hmt
      refine ⟨i + 1, ?_, by simp; omega⟩
      rw [List.findIdx?_cons]
      simp [ha, hi]

theorem npArgmax_spec (l : List ℚ) (h : l ≠ []) :
    ∃ i, npArgmax l = some i ∧ i < l.length := by
  obtain ⟨m, hm, hmmem⟩ := pyListMax_spec l h
  obtain ⟨i, hi, hilt⟩ := findIdx?_of_mem l m hmmem
  exact ⟨i, by rw [npArgmax, hm, Option.some_bind, hi], hilt⟩

theorem breedOne_spec (p : GAParams) (po1 : PairOracle) (p1 p2 : List ℤ)
    (hm0 : 0 ≤ p.maxHoursPerDay) (hL : 2 ≤ chromosomeLength p)
    (h1l : p1.length = chromosomeLength p) (h1g : genesOK p p1)
    (h2l : p2.length = chromosomeLength p) (h2g : genesOK p p2) :
    ∃ c1 c2 m1 m2,
      crossover p po1.crossCoin po1.pointRaw po1.fixRaw1 po1.fixRaw2 p1 p2 = some (c1, c2) ∧
      mutate p po1.mutCoin1 po1.mutPick1 po1.mutFix1 c1 = some m1 ∧
      mutate p po1.mutCoin2 po1.mutPick2 po1.mutFix2 c2 = some m2 ∧
      m1.length = chromosomeLength p ∧ genesOK p m1 ∧
      m2.length = chromosomeLength p ∧ genesOK p m2 := by
  obtain ⟨c1, c2, hs, hl1, hl2, hmem1, hmem2, _, _⟩ :=
    crossover_spec p po1.crossCoin po1.pointRaw po1.fixRaw1 po1.fixRaw2 p1 p2 hm0
      (h1l ▸ hL) (by rw [h1l, h2l])
  have hc1g : genesOK p c1 := by
    intro g hg
    rcases hmem1 g hg with h | h
    · rcases h with h | h
      · exact h1g g h
      · exact h2g g h
    · exact Or.inl h
  have hc2g : genesOK p c2 := by
    intro g hg
    rcases hmem2 g hg with h | h
    · rcases h with h | h
      · exact h1g g h
      · exact h2g g h
    · exact Or.inl h
  obtain ⟨m1, hmu1, hm1l, hm1g⟩ :=
    mutate_spec p po1.mutCoin1 po1.mutPick1 po1.mutFix1 c1 (maxSlots_nonneg p hm0) hc1g
  obtain ⟨m2, hmu2, hm2l, hm2g⟩ :=
    mutate_spec p po1.mutCoin2 po1.mutPick2 po1.mutFix2 c2 (maxSlots_nonneg p hm0) hc2g
  exact ⟨c1, c2, m1, m2, hs, hmu1, hmu2, by rw [hm1l, hl1, h1l], hm1g,
    by rw [hm2l, hl2, h1l], hm2g⟩

theorem breedPairs_spec (p : GAParams) (po : ℕ → PairOracle) (first : List ℤ)
    (hm0 : 0 ≤ p.maxHoursPerDay) (hL : 2 ≤ chromosomeLength p)
    (hfl : first.length = chromosomeLength p) (hfg : genesOK p first) :
    ∀ (n : ℕ) (sel : List (List ℤ)), sel.length ≤ n → ∀ (k : ℕ),
    (∀ x ∈ sel, x.length = chromosomeLength p ∧ genesOK p x) →
    ∃ out, breedPairs p po first k sel = some out ∧ sel.length ≤ out.length ∧
      ∀ x ∈ out, x.length = chromosomeLength p ∧ genesOK p x := by
  intro n
  induction n with
  | zero =>
    intro sel hlen k hinv
    have hnil : sel = [] := List.eq_nil_of_length_eq_zero (by omega)
    subst hnil
    exact ⟨[], rfl, by simp, by simp⟩
  | succ n ih =>
    intro sel hlen k hinv
    cases sel with
    | nil => exact ⟨[], rfl, by simp, by simp⟩
    | cons p1 rest1 =>
      cases rest1 with
      | nil =>
        obtain ⟨hp1l, hp1g⟩ := hinv p1 (List.mem_cons_self _ _)
        obtain ⟨c1, c2, m1, m2, hs, hmu1, hmu2, hm1l, hm1g, hm2l, hm2g⟩ :=
          breedOne_spec p (po k) p1 first hm0 hL hp1l hp1g hfl hfg
        refine ⟨[m1, m2], ?_, by simp, ?_⟩
        · simp only [breedPairs, hs, hmu1, hmu2, Option.bind_eq_bind, Option.some_bind]
          rfl
        · intro x hx
          rcases List.mem_cons.mp hx with hh | hh
          · rw [hh]
            exact ⟨hm1l, hm1g⟩
          · rcases List.mem_cons.mp hh with hh2 | hh2
            · rw [hh2]
              exact ⟨hm2l, hm2g⟩
            · simp at hh2
      | cons p2 rest =>
        obtain ⟨hp1l, hp1g⟩ := hinv p1 (List.mem_cons_self _ _)
        obtain ⟨hp2l, hp2g⟩ := hinv p2 (List.mem_cons_of_mem _ (List.mem_cons_self _ _))
        obtain ⟨c1, c2, m1, m2, hs, hmu1, hmu2, hm1l, hm1g, hm2l, hm2g⟩ :=
          breedOne_spec p (po k) p1 p2 hm0 hL hp1l hp1g hp2l hp2g
        have hrlen : rest.length ≤ n := by
          simp only [List.length_cons] at hlen
          omega
        obtain ⟨tail, htail, htlen, htinv⟩ := ih rest hrlen (k + 1)
          (fun x hx => hinv x (List.mem_cons_of_mem _ (List.mem_cons_of_mem _ hx)))
        refine ⟨m1 :: m2 :: tail, ?_, ?_, ?_⟩
        · simp only [breedPairs, hs, hmu1, hmu2, htail, Option.bind_eq_bind, Option.some_bind]
          rfl
        · simp only [List.length_cons]
          omega
        · intro x hx
          rcases List.mem_cons.mp hx with hh | hh
          · rw [hh]
            exact ⟨hm1l, hm1g⟩
          · rcases List.mem_cons.mp hh with hh2 | hh2
            · rw [hh2]
              exact ⟨hm2l, hm2g⟩
            · exact htinv x hh2

theorem evolveLoop_spec (p : GAParams) (popSize : ℕ) (hm : 0 < p.maxHoursPerDay)
    (hL : 2 ≤ chromosomeLength p) (hp : 3 ≤ popSize) :
    ∀ (gens : ℕ) (gen : ℕ → GenOracle) (pop : List (List ℤ)),
    pop.length = popSize → (∀ x ∈ pop, x.length = chromosomeLength p ∧ genesOK p x) →
    ∃ fp hist, evolveLoop p popSize gen gens pop = some (fp, hist) ∧
      hist.length = gens ∧ fp.length = popSize ∧
      (∀ x ∈ fp, x.length = chromosomeLength p ∧ genesOK p x) := by
  intro gens
  induction gens with
  | zero =>
    intro gen pop hplen hpinv
    exact ⟨pop, [], rfl, rfl, hplen, hpinv⟩
  | succ gens ih =>
    intro gen pop hplen hpinv
    have hscores : mapO (evaluateFitness p) pop = some (pop.map (specFitness p)) :=
      mapO_eq_some_of _ _ pop
        (fun c hc => evaluateFitness_eq p c (genesOK_pre p c (hpinv c hc).2))
    have hsne : pop.map (specFitness p) ≠ [] := by
      intro hcon
      have := congrArg List.length hcon
      simp [hplen] at this
      omega
    obtain ⟨best, hbest, _⟩ := pyListMax_spec _ hsne
    obtain ⟨sel, hsel, hsellen, hselmem⟩ :=
      selection_spec pop (pop.map (specFitness p)) (gen 0).selRaw (by omega)
    have hselinv : ∀ x ∈ sel, x.length = chromosomeLength p ∧ genesOK p x :=
      fun x hx => hpinv x (hselmem x hx)
    have hselne : sel ≠ [] := by
      intro hcon
      rw [hcon] at hsellen
      simp at hsellen
      omega
    have hheadmem : sel.headD [] ∈ sel := by
      cases sel with
      | nil => exact absurd rfl hselne
      | cons a t => exact List.mem_cons_self _ _
    obtain ⟨hhl, hhg⟩ := hselinv _ hheadmem
    obtain ⟨children, hch, hchlen, hchinv⟩ :=
      breedPairs_spec p (gen 0).pair (sel.headD []) hm.le hL hhl hhg sel.length sel le_rfl 0
        hselinv
    have htake : (children.take popSize).length = popSize := by
      rw [List.length_take]
      rw [hsellen, hplen] at hchlen
      omega
    obtain ⟨fp, hist, hrec, hhistlen, hfplen, hfpinv⟩ := ih (fun i => gen (i + 1))
      (children.take popSize) htake
      (fun x hx => hchinv x (List.take_subset _ _ hx))
    refine ⟨fp, best :: hist, ?_, by simp [hhistlen], hfplen, hfpinv⟩
    simp only [evolveLoop, hscores, hbest, hsel, hch, hrec, Option.bind_eq_bind,
      Option.some_bind]
    rfl

/-- C2 is refuted at population size 2 (allowed by the claim): tournament
selection draws random.sample(range(2), 3), which raises, so evolve does not
run to completion. -/
theorem C2_counterexample : evolve cxParams trivialEvolveOracle 2 1 = none := by
  obtain ⟨hpoplen, hpopinv⟩ := createInitialPopulation_spec cxParams
    trivialEvolveOracle.initCoin trivialEvolveOracle.initPick 2
  have hscores : mapO (evaluateFitness cxParams)
      (createInitialPopulation cxParams trivialEvolveOracle.initCoin
        trivialEvolveOracle.initPick 2) =
      some ((createInitialPopulation cxParams trivialEvolveOracle.initCoin
        trivialEvolveOracle.initPick 2).map (specFitness cxParams)) :=
    mapO_eq_some_of _ _ _
      (fun c hc => evaluateFitness_eq cxParams c (genesOK_pre cxParams c (hpopinv c hc).2))
  have hsne : (createInitialPopulation cxParams trivialEvolveOracle.initCoin
      trivialEvolveOracle.initPick 2).map (specFitness cxParams) ≠ [] := by
    intro hcon
    have := congrArg List.length hcon
    simp [hpoplen] at this
  obtain ⟨best, hbest, _⟩ := pyListMax_spec _ hsne
  have hselnone : selection
      (createInitialPopulation cxParams trivialEvolveOracle.initCoin
        trivialEvolveOracle.initPick 2)
      ((createInitialPopulation cxParams trivialEvolveOracle.initCoin
        trivialEvolveOracle.initPick 2).map (specFitness cxParams))
      (trivialEvolveOracle.gen 0).selRaw = none := by
    rw [selection]
    exact selectionGo_none _ _ _ _ (by omega) (by omega)
  rw [evolve]
  have hloop : evolveLoop cxParams 2 trivialEvolveOracle.gen 1
      (createInitialPopulation cxParams trivialEvolveOracle.initCoin
        trivialEvolveOracle.initPick 2) = none := by
    simp only [evolveLoop, hscores, hbest, hselnone, Option.bind_eq_bind, Option.some_bind,
      Option.none_bind]
  simp only [hloop, Option.bind_eq_bind, Option.none_bind]

/-- C2 amended: with a non-empty course list, days and slots_per_day at least 1,
positive max hours, population size at least 3 (the tournament size) and
chromosome length at least 2 (so the crossover cut range is non-empty), evolve
runs to completion for every random outcome and the returned fitness history
has length exactly generation_count. -/
theorem C2_amended_evolve (p : GAParams) (o : EvolveOracle) (popSize gens : ℕ)
    (_hc : p.courses ≠ []) (_hd : 1 ≤ p.days) (_hs : 1 ≤ p.slotsPerDay)
    (hm : 0 < p.maxHoursPerDay) (hp : 3 ≤ popSize) (_hg : 1 ≤ gens)
    (hL : 2 ≤ chromosomeLength p) :
    (evolve p o popSize gens).map (fun r => r.2.length) = some gens := by
  obtain ⟨hpoplen, hpopinv⟩ :=
    createInitialPopulation_spec p o.initCoin o.initPick popSize
  obtain ⟨fp, hist, hloop, hhistlen, hfplen, hfpinv⟩ :=
    evolveLoop_spec p popSize hm hL hp gens o.gen _ hpoplen hpopinv
  have hfinal : mapO (evaluateFitness p) fp = some (fp.map (specFitness p)) :=
    mapO_eq_some_of _ _ fp
      (fun c hc2 => evaluateFitness_eq p c (genesOK_pre p c (hfpinv c hc2).2))
  have hfne : fp.map (specFitness p) ≠ [] := by
    intro hcon
    have := congrArg List.length hcon
    simp [hfplen] at this
    omega
  obtain ⟨bi, hbi, hbilt⟩ := npArgmax_spec _ hfne
  have hbilt2 : bi < fp.length := by
    rw [List.length_map] at hbilt
    exact hbilt
  rw [evolve]
  simp only [hloop, hfinal, hbi, List.get?_eq_get hbilt2, Option.bind_eq_bind,
    Option.some_bind, Option.map_some']
  simp [hhistlen]

/-- Witness for the amended C2 at a concrete configuration. -/
theorem C2_amended_evolve_witness :
    (evolve c2Params trivialEvolveOracle 3 1).map (fun r => r.2.length) = some 1 :=
  C2_amended_evolve c2Params trivialEvolveOracle 3 1 (by decide) (by decide) (by decide)
    (by norm_num [c2Params]) (by decide) (by decide) (by decide)

theorem lookupCourse_isSome (courses : List Course) (s : ℤ)
    (h : ∃ co ∈ courses, co.id = s) : ∃ c0, lookupCourse courses s = some c0 := by
  obtain ⟨co, hmem, hid⟩ := h
  have hsome : (courses.find? (fun c => c.id == s)).isSome := by
    rw [List.find?_isSome]
    exact ⟨co, hmem, by simp [hid]⟩
  exact Option.isSome_iff_exists.mp hsome

theorem dayReadable_spec (p : GAParams) (ds : List ℤ)
    (hpre : ∀ s ∈ ds, s ≠ 0 → ∃ co ∈ p.courses, co.id = s) :
    ∃ r, dayReadable p ds = some r ∧
      r.slots.map Prod.fst = (List.range ds.length).map slotLabel := by
  have hentries : mapO (fun si : ℕ × ℤ =>
      if si.2 ≠ 0 then (lookupCourse p.courses si.2).map (fun co => (slotLabel si.1, co.name))
      else some (slotLabel si.1, "Rest")) ds.enum =
      some (ds.enum.map (fun si => (slotLabel si.1,
        if si.2 ≠ 0 then courseNameD p.courses si.2 else "Rest"))) := by
    apply mapO_eq_some_of
    intro si hsi
    by_cases h0 : si.2 ≠ 0
    · rw [if_pos h0, if_pos h0]
      obtain ⟨c0, hc0⟩ := lookupCourse_isSome p.courses si.2
        (hpre si.2 (List.snd_mem_of_mem_enum hsi) h0)
      rw [hc0, Option.map_some', courseNameD, hc0]
      rfl
    · rw [if_neg h0, if_neg h0]
  have hdiffs : mapO (lookupDifficulty p.courses) (ds.filter (fun s => decide (s ≠ 0))) =
      some ((ds.filter (fun s => decide (s ≠ 0))).map (difficultyD p.courses)) := by
    apply mapO_eq_some_of
    intro s hs
    have hmem := List.mem_filter.mp hs
    exact lookupDifficulty_eq_some p.courses s (hpre s hmem.1 (by simpa using hmem.2))
  refine ⟨⟨ds.enum.map (fun si => (slotLabel si.1,
      if si.2 ≠ 0 then courseNameD p.courses si.2 else "Rest")),
    (countNZ ds : ℚ) * hoursPerSlot,
    (if ((ds.filter (fun s => decide (s ≠ 0))).map (difficultyD p.courses)).isEmpty then 0
     else ((ds.filter (fun s => decide (s ≠ 0))).map (difficultyD p.courses)).sum /
       ((((ds.filter (fun s => decide (s ≠ 0))).map (difficultyD p.courses)).length : ℚ))),
    calculateStress ((countNZ ds : ℚ) * hoursPerSlot)
      (if ((ds.filter (fun s => decide (s ≠ 0))).map (difficultyD p.courses)).isEmpty then 0
       else ((ds.filter (fun s => decide (s ≠ 0))).map (difficultyD p.courses)).sum /
         ((((ds.filter (fun s => decide (s ≠ 0))).map (difficultyD p.courses)).length : ℚ))),
    stressLabel (calculateStress ((countNZ ds : ℚ) * hoursPerSlot)
      (if ((ds.filter (fun s => decide (s ≠ 0))).map (difficultyD p.courses)).isEmpty then 0
       else ((ds.filter (fun s => decide (s ≠ 0))).map (difficultyD p.courses)).sum /
         ((((ds.filter (fun s => decide (s ≠ 0))).map (difficultyD p.courses)).length : ℚ))))⟩,
    ?_, ?_⟩
  · simp only [dayReadable, hentries, hdiffs, Option.bind_eq_bind, Option.some_bind]
    rfl
  · show (ds.enum.map _).map Prod.fst = _
    rw [List.map_map]
    have hcomp : (Prod.fst ∘ fun si : ℕ × ℤ => (slotLabel si.1,
        if si.2 ≠ 0 then courseNameD p.courses si.2 else "Rest")) =
        (slotLabel ∘ Prod.fst) := rfl
    rw [hcomp, ← List.map_map, List.enum_map_fst]

theorem scheduleToReadable_spec (p : GAParams) (c : List ℤ)
    (hpre : ∀ g ∈ c, g ≠ 0 → ∃ co ∈ p.courses, co.id = g) :
    ∃ f : ℕ → DayReadable, scheduleToReadable p c =
      some ((List.range p.days).map (fun d => (dayLabel d, f d))) ∧
      ∀ d, d < p.days → (f d).slots.map Prod.fst =
        (List.range (daySlice p.slotsPerDay c d).length).map slotLabel := by
  have hsub : ∀ d, ∀ s ∈ daySlice p.slotsPerDay c d, s ≠ 0 → ∃ co ∈ p.courses, co.id = s := by
    intro d s hs hs0
    have : s ∈ c := by
      rw [daySlice] at hs
      exact List.drop_subset _ c (List.take_subset _ _ hs)
    exact hpre s this hs0
  refine ⟨fun d => (dayReadable p (daySlice p.slotsPerDay c d)).getD ⟨[], 0, 0, 0, ""⟩,
    ?_, ?_⟩
  · rw [scheduleToReadable]
    apply mapO_eq_some_of
    intro d _
    obtain ⟨r, hr, _⟩ := dayReadable_spec p (daySlice p.slotsPerDay c d) (hsub d)
    simp only [hr, Option.map_some', Option.getD_some]
  · intro d _
    obtain ⟨r, hr, hrk⟩ := dayReadable_spec p (daySlice p.slotsPerDay c d) (hsub d)
    simp only [hr, Option.getD_some]
    exact hrk

/-- C8: with 10 configured days, the decoded schedule has exactly the day keys
Monday..Sunday followed by Day 7, Day 8, Day 9; with 5 slots per day (and a
chromosome of the configured length), every day has exactly the slot keys
Morning, Afternoon, Evening, Slot 3, Slot 4. -/
theorem C8_decoding_labels (courses : List Course) (mh : ℚ) (c1 c2 : List ℤ)
    (h1 : ∀ g ∈ c1, g ≠ 0 → ∃ co ∈ courses, co.id = g)
    (h2 : ∀ g ∈ c2, g ≠ 0 → ∃ co ∈ courses, co.id = g)
    (hlen2 : c2.length = 35) :
    ((scheduleToReadable ⟨courses, 10, 3, mh⟩ c1).map (fun s => s.map Prod.fst) =
      some (["Monday", "Tuesday", "Wednesday", "Thursday", "Friday", "Saturday",
        "Sunday"] ++ ["Day 7", "Day 8", "Day 9"])) ∧
    ((scheduleToReadable ⟨courses, 7, 5, mh⟩ c2).map
        (fun s => s.map (fun e => e.2.slots.map Prod.fst)) =
      some (List.replicate 7
        (["Morning", "Afternoon", "Evening"] ++ ["Slot 3", "Slot 4"]))) := by
  constructor
  · obtain ⟨f, hsched, _⟩ := scheduleToReadable_spec ⟨courses, 10, 3, mh⟩ c1 h1
    rw [hsched, Option.map_some']
    rw [List.map_map]
    have hcomp : (Prod.fst ∘ fun d => (dayLabel d, f d)) = dayLabel := rfl
    rw [hcomp]
    rfl
  · obtain ⟨f, hsched, hslots⟩ := scheduleToReadable_spec ⟨courses, 7, 5, mh⟩ c2 h2
    rw [hsched, Option.map_some']
    rw [List.map_map]
    have hcomp : ((fun e : String × DayReadable => e.2.slots.map Prod.fst) ∘
        fun d => (dayLabel d, f d)) = fun d => (f d).slots.map Prod.fst := rfl
    rw [hcomp]
    have hlen5 : ∀ d ∈ List.range 7, (f d).slots.map Prod.fst =
        ["Morning", "Afternoon", "Evening", "Slot 3", "Slot 4"] := by
      intro d hd
      have hd7 : d < 7 := List.mem_range.mp hd
      have hlenslice : (daySlice (5 : ℕ) c2 d).length = 5 := by
        rw [daySlice, List.length_take, List.length_drop, hlen2]
        omega
      rw [hslots d hd7]
      show (List.range (daySlice (5 : ℕ) c2 d).length).map slotLabel = _
      rw [hlenslice]
      rfl
    rw [List.map_congr_left hlen5]
    rw [List.map_const', List.length_range]
    rfl

/-- Witness for C8 at concrete all-rest chromosomes. -/
theorem C8_decoding_labels_witness :
    (scheduleToReadable ⟨wCourses, 10, 3, 4⟩ (List.replicate 30 0)).map
      (fun s => s.map Prod.fst) =
      some (["Monday", "Tuesday", "Wednesday", "Thursday", "Friday", "Saturday",
        "Sunday"] ++ ["Day 7", "Day 8", "Day 9"]) :=
  (C8_decoding_labels wCourses 4 (List.replicate 30 0) (List.replicate 35 0)
    (by decide) (by decide) (by decide)).1

end StudyPlanner
